import Mathlib

/-!
Verification development for the beans language front end (lexer grammar
construction, Earley recognizer, forest builder and tree selector).

The Rust sources under `src/src/lexer/grammarparser.rs` and
`src/src/parser/earley.rs` are embedded shallowly: machine-word ids
(`TerminalId`, `NonTerminalId`, `RuleId`) become `Nat`, vectors become
`List`, hash maps become association lists in insertion order, bit sets
become `Finset Nat`, and fallible or panicking code returns `Option` /
`Except`.  Loops whose termination is not structural take explicit fuel;
theorems about them carry the hypothesis that the fuel sufficed, which
witnesses discharge on concrete runs.  Types that the repository declares
outside the provided files (`Rule`, `RuleElement`, the proxy language, the
lexed stream) are modelled from the specification, as marked on each such
definition.
-/

set_option maxRecDepth 10000

/-- Replacement for list indexing that returns a default out of bounds.
Rust's `v[i]` panics out of bounds; every theorem that relies on an indexed
access keeps the index in bounds, so the default is never observed there. -/
def getDef {α : Type _} (d : α) : List α → Nat → α
  | [], _ => d
  | a :: _, 0 => a
  | _ :: as, n + 1 => getDef d as n

/-- Pointwise update of the element at an index, identity out of bounds. -/
def listModify {α : Type _} (f : α → α) : Nat → List α → List α
  | _, [] => []
  | 0, a :: as => f a :: as
  | n + 1, a :: as => a :: listModify f n as

/-- Lookup in an association list with `Nat` keys (first match wins; the
embedded maps never hold a duplicate key). -/
def alookup {β : Type _} (k : Nat) : List (Nat × β) → Option β
  | [] => none
  | (k', v) :: rest => if k' = k then some v else alookup k rest

/-- HashMap `entry(k).or_default().push(v)` on an association list of
vectors: append `v` to the entry of `k`, creating it when absent. -/
def upsertPush {β : Type _} (l : List (Nat × List β)) (k : Nat) (v : β) :
    List (Nat × List β) :=
  if (alookup k l).isSome then
    l.map (fun kv => if kv.1 = k then (kv.1, kv.2 ++ [v]) else kv)
  else l ++ [(k, [v])]

/-- Bit-set insert on a list of ids: a no-op when the id is present.  The
source's `newty` sets are bit sets; `ones()` (ascending order) is recovered
by sorting, so a duplicate-free list carries the same information. -/
def bitInsert (i : Nat) (l : List Nat) : List Nat :=
  if i ∈ l then l else l ++ [i]

/-- HashMap `insert` on a string-keyed association list: replace the value
of an existing key in place, append a missing one. -/
def setKey {β : Type _} (l : List (String × β)) (k : String) (v : β) :
    List (String × β) :=
  if (l.lookup k).isSome then
    l.map (fun kv => if kv.1 = k then (kv.1, v) else kv)
  else l ++ [(k, v)]

/-- Source span, `(byte start, byte end)` of a location in the input buffer
(the file path component is irrelevant to the embedded code). -/
structure Span where
  left : Nat
  right : Nat
deriving DecidableEq, Repr

instance : Inhabited Span := ⟨⟨0, 0⟩⟩

/-- Smallest enclosing span, the `Location::sup` used for node spans. -/
def Span.sup (a b : Span) : Span :=
  ⟨min a.left b.left, max a.right b.right⟩

/-- Token produced by the lexed stream: terminal id, name, positional
captures and location. -/
structure Token where
  id : Nat
  name : String
  attrs : List (Nat × String)
  location : Span
deriving DecidableEq, Repr

instance : Inhabited Token := ⟨⟨0, "", [], default⟩⟩

/-! ## Lexer grammar (src/src/lexer/grammarparser.rs) -/

/-- Combined regex, modelled from the spec as the list of
`(pattern, name, keyword)` triples handed to the regex builder; pattern
compilation itself is a regex-engine concern outside the embedded files
and is treated as total here. -/
abbrev CompiledRegex := List (String × String × Bool)

/-- Terminal declaration as delivered by the grammar-file parser (the typed
AST read in `build_from_ast`): name, regex, the `ignore`/`unwanted`/
`keyword` flags and the optional comment (error message / description). -/
structure TerminalDecl where
  name : String
  regex : String
  ignore : Bool
  unwanted : Bool
  keyword : Bool
  comment : Option String
deriving DecidableEq, Repr

/-- LexerGrammar as constructed by `LexerGrammar::new`: `ignores` is the
bit set handed in by the builder and `defaultAllowed` is the ascending list
of its members (`ignores.0.ones()`). -/
structure LexerGrammar where
  pattern : CompiledRegex
  names : List String
  ignores : List Nat
  errors : List (Nat × String)
  descriptions : List (Nat × String)
  defaultAllowed : List Nat
  nameMap : List (String × Nat)
deriving DecidableEq

/-- Embedding of `LexerGrammar::new`. -/
def LexerGrammar.new (pattern : CompiledRegex) (names : List String)
    (ignores : List Nat) (errors descriptions : List (Nat × String)) :
    LexerGrammar :=
  let nameMap := (names.enum.map (fun p => (p.2, p.1))).foldl
    (fun m kv => setKey m kv.1 kv.2) []
  let defaultAllowed := List.insertionSort (· ≤ ·) ignores
  { pattern := pattern, names := names, ignores := ignores,
    errors := errors, descriptions := descriptions,
    defaultAllowed := defaultAllowed, nameMap := nameMap }

/-- Embedding of `LexerGrammar::name`. -/
def LexerGrammar.name (g : LexerGrammar) (idx : Nat) : String :=
  getDef "" g.names idx

/-- Error construction inside whose `span: todo!()` the panic fired. -/
inductive LexPanic where
  | unwantedNoDescription (token : String)
  | duplicateDefinition (message : String)
deriving DecidableEq, Repr

/-- Outcome of `LexerGrammar::build_from_ast`.  Every error return in the
source constructs its error value with a `span: todo!()` field, so reaching
an error path panics while the error is being built instead of returning
it; the `panicked` constructor records which construction was reached and
the data computed before the `todo!()` fired. -/
inductive LexBuild where
  | panicked (cause : LexPanic)
  | built (g : LexerGrammar)
deriving DecidableEq

/-- Loop body of `build_from_ast` over the declared terminals, threading
the accumulated state in declaration order. -/
def buildFromAstAux : List TerminalDecl → List Nat → List (Nat × String) →
    List (Nat × String) → List String → CompiledRegex → List String → LexBuild
  | [], ignores, errors, descriptions, names, regexes, _found =>
      .built (LexerGrammar.new regexes names ignores errors descriptions)
  | t :: rest, ignores, errors, descriptions, names, regexes, found =>
      let id := names.length
      let ignores1 := if t.ignore || t.unwanted then bitInsert id ignores else ignores
      if t.unwanted && t.comment.isNone then
        .panicked (.unwantedNoDescription t.name)
      else
        let errors1 :=
          if t.unwanted then
            match t.comment with
            | some m => errors ++ [(id, m)]
            | none => errors
          else errors
        let descriptions1 :=
          match t.comment with
          | some c => descriptions ++ [(id, c)]
          | none => descriptions
        let names1 := names ++ [t.name]
        if t.name ∈ found then .panicked (.duplicateDefinition t.name)
        else
          buildFromAstAux rest ignores1 errors1 descriptions1 names1
            (regexes ++ [(t.regex, t.name, t.keyword)]) (found ++ [t.name])

/-- Embedding of `LexerGrammar::build_from_ast` from the typed terminal
list. -/
def buildFromAst (terminals : List TerminalDecl) : LexBuild :=
  buildFromAstAux terminals [] [] [] [] [] []

/-! ## Parser grammar data model

`Rule`, `RuleElement`, the attribute markers, the proxy language, `Value`
and `AST` are declared in `src/parser/grammarparser.rs` / `parser.rs`,
which are not among the provided files; they are modelled from the spec
(section 3) and from how `earley.rs` consumes them. -/

/-- Attribute marker of a rule element.  Modelled from the spec:
`attribute ∈ {None, Named(key), Indexed(capture-index)}`. -/
inductive Attr where
  | none
  | named (key : String)
  | indexed (idx : Nat)
deriving DecidableEq, Repr

/-- Kind of a rule element.  Modelled from the spec:
`kind ∈ {Terminal(TerminalId), NonTerminal(NonTerminalId)}`. -/
inductive ElementType where
  | terminal (id : Nat)
  | nonTerminal (id : Nat)
deriving DecidableEq, Repr

/-- Rule element.  Modelled from the spec: kind, attribute marker, and the
optional key under which the element's value is stored in the parent. -/
structure RuleElement where
  attr : Attr
  key : Option String
  elementType : ElementType
deriving DecidableEq, Repr

/-- Literal value.  Modelled from the spec (`int/float/bool/string`; floats
play no part in any claim and are omitted). -/
inductive Value where
  | int (n : Int)
  | bool (b : Bool)
  | str (s : String)
deriving DecidableEq, Repr

mutual
/-- Proxy value.  Modelled from the spec: a literal, a reference to an
attribute already produced by the elements, or a nested node constructor
(non-terminal plus its own proxy). -/
inductive ProxyValue where
  | lit (v : Value)
  | ref (key : String)
  | nodeCons (name : String) (proxy : Proxy)

/-- Ordered list of `(key, proxy value)` pairs of a rule. -/
inductive Proxy where
  | nil
  | cons (key : String) (value : ProxyValue) (rest : Proxy)
end

instance : Inhabited Proxy := ⟨.nil⟩

/-- Rule of the parser grammar.  Modelled from the spec:
`{id (LHS), elements, proxy, left_associative}`. -/
structure Rule where
  id : Nat
  elements : List RuleElement
  proxy : Proxy
  leftAssociative : Bool

instance : Inhabited Rule := ⟨⟨0, [], .nil, false⟩⟩

/-- AST delivered by the parser (spec section 3). -/
inductive AST where
  | node (nonterminal : Nat) (attributes : List (String × AST)) (span : Span)
  | terminal (token : Token)
  | literal (value : Value) (span : Option Span)

instance : Inhabited AST := ⟨.literal (.int 0) Option.none⟩

/-! ## EarleyGrammar construction (earley.rs, `Grammar::new`) -/

/-- Check of the nullability-insertion condition: every element of the rule
is a non-terminal already in the set (terminals count as non-nullable). -/
def allNullable (S : Finset Nat) (elements : List RuleElement) : Bool :=
  elements.all (fun el =>
    match el.elementType with
    | .nonTerminal id => decide (id ∈ S)
    | .terminal _ => false)

/-- Inner loop of the nullability worklist: walk `is_in[current]` in order,
inserting the left-hand side of every rule that is not yet nullable but
whose elements all are, and recording each insertion for the queue. -/
def processRules (rules : List Rule) : List Nat → Finset Nat → List Nat →
    Finset Nat × List Nat
  | [], S, pushed => (S, pushed)
  | rid :: rest, S, pushed =>
    let lhs := (getDef default rules rid).id
    if lhs ∉ S ∧ allNullable S (getDef default rules rid).elements then
      processRules rules rest (insert lhs S) (pushed ++ [lhs])
    else
      processRules rules rest S pushed

/-- Worklist loop computing the nullable set.  The queue is kept with its
back at the head (the source pops from the back of a deque and pushes at
the front, so pops take the head here and pushes append).  The fuel passed
by `EarleyGrammar.new` always suffices, as the theorems establish. -/
def nullLoop (rules : List Rule) (isIn : List (List Nat)) :
    Nat → Finset Nat → List Nat → Finset Nat
  | 0, S, _ => S
  | _ + 1, S, [] => S
  | fuel + 1, S, current :: rest =>
    let step := processRules rules (getDef [] isIn current) S []
    nullLoop rules isIn fuel step.1 (rest ++ step.2)

/-- Update of the `is_in` table for one rule element: rules that mention a
non-terminal on their right-hand side are recorded under it. -/
def isInStep (i : Nat) (m : List (List Nat)) (el : RuleElement) :
    List (List Nat) :=
  match el.elementType with
  | .nonTerminal rhs => listModify (fun l => l ++ [i]) rhs m
  | .terminal _ => m

/-- Initialization pass of `Grammar::new`: a traversal of the rules in
order (rule `i` is `RuleId(i)`) filling `rules_of`, `is_in`, the initial
nullables (left-hand sides of empty rules) and the initial queue. -/
def grammarInitAux : List Rule → Nat → List (List Nat) → List (List Nat) →
    Finset Nat → List Nat →
    List (List Nat) × List (List Nat) × Finset Nat × List Nat
  | [], _, rulesOf, isIn, nulls, queue => (rulesOf, isIn, nulls, queue)
  | rule :: rest, i, rulesOf, isIn, nulls, queue =>
    let rulesOf1 := listModify (fun l => l ++ [i]) rule.id rulesOf
    let isIn1 := rule.elements.foldl (isInStep i) isIn
    if rule.elements.isEmpty then
      grammarInitAux rest (i + 1) rulesOf1 isIn1 (insert rule.id nulls)
        (queue ++ [rule.id])
    else
      grammarInitAux rest (i + 1) rulesOf1 isIn1 nulls queue

/-- Initialization pass of `Grammar::new` over the whole rule vector. -/
def grammarInit (rules : List Rule) (nbNT : Nat) :
    List (List Nat) × List (List Nat) × Finset Nat × List Nat :=
  grammarInitAux rules 0 (List.replicate nbNT []) (List.replicate nbNT []) ∅ []

/-- Parser grammar as built by `EarleyGrammar::new` (`Grammar::new` in
earley.rs): `nbNT` is the number of non-terminals (the capacity of the
axioms bit set in the source). -/
structure EarleyGrammar where
  axioms : Finset Nat
  rules : List Rule
  nullables : Finset Nat
  idOf : List (String × Nat)
  nameOf : List String
  rulesOf : List (List Nat)

/-- Embedding of `EarleyGrammar::new`.  The fuel handed to the worklist is
an upper bound on its step count (each step strictly decreases the measure
`queue length + (nbNT + 1) * (nbNT - card nullables)`). -/
def EarleyGrammar.new (rules : List Rule) (axioms : Finset Nat) (nbNT : Nat)
    (idOf : List (String × Nat)) (nameOf : List String) : EarleyGrammar :=
  let init := grammarInit rules nbNT
  let nullables := nullLoop rules init.2.1
    (init.2.2.2.length + (nbNT + 1) * (nbNT + 1)) init.2.2.1 init.2.2.2
  { axioms := axioms, rules := rules, nullables := nullables,
    idOf := idOf, nameOf := nameOf, rulesOf := init.1 }

/-! ## Earley recognizer (earley.rs, `EarleyParser::recognise`) -/

/-- Earley item `(rule, origin, position)`. -/
structure EarleyItem where
  rule : Nat
  origin : Nat
  position : Nat
deriving DecidableEq, Repr

/-- State set: the item vector plus the cursor of the next unprocessed
item (the `position` field of the source's `StateSet`); the hash-set dedup
cache is represented by membership in the vector itself. -/
structure StateSet where
  set : List EarleyItem
  position : Nat
deriving DecidableEq, Repr

instance : Inhabited StateSet := ⟨⟨[], 0⟩⟩

/-- Embedding of `StateSet::add`: push the item unless it is already
present. -/
def StateSet.add (s : StateSet) (item : EarleyItem) : StateSet :=
  if item ∈ s.set then s else { s with set := s.set ++ [item] }

/-- Scan queue of one step: a map from terminal id to the items that the
corresponding token would advance, in insertion order. -/
abbrev Scans := List (Nat × List EarleyItem)

/-- HashMap `scans.entry(id).or_insert(Vec::new()).push(item)`. -/
def scansAdd (scans : Scans) (id : Nat) (item : EarleyItem) : Scans :=
  upsertPush scans id item

/-- Keys of the scan queue (the terminals that would advance some item). -/
def scansKeys (scans : Scans) : List Nat := scans.map (·.1)

/-- Items queued under a terminal id (`entry(id).or_default()`). -/
def scansGet (scans : Scans) (id : Nat) : List EarleyItem :=
  (alookup id scans).getD []

/-- Processing of one item of the current set `S[pos]` (the match inside
the inner loop of `recognise`): prediction and completion return the items
to be added to `S[pos]`, scanning extends the scan queue. -/
def itemActions (g : EarleyGrammar) (sets : List StateSet) (pos : Nat)
    (item : EarleyItem) (scans : Scans) : List EarleyItem × Scans :=
  match (getDef default g.rules item.rule).elements.get? item.position with
  | some el =>
    match el.elementType with
    | .nonTerminal id =>
      let toAdd := (getDef [] g.rulesOf id).map
        (fun rule => { rule := rule, origin := pos, position := 0 })
      let toAdd := if id ∈ g.nullables then
          toAdd ++ [{ rule := item.rule, origin := item.origin,
                      position := item.position + 1 }]
        else toAdd
      (toAdd, scans)
    | .terminal id =>
      ([], scansAdd scans id
        { rule := item.rule, origin := item.origin,
          position := item.position + 1 })
  | none =>
    let parents := (getDef default sets item.origin).set
    (parents.filterMap (fun parent =>
      match (getDef default g.rules parent.rule).elements.get? parent.position with
      | some pel =>
        match pel.elementType with
        | .nonTerminal nt =>
          if nt = (getDef default g.rules item.rule).id then
            some { rule := parent.rule, origin := parent.origin,
                   position := parent.position + 1 }
          else none
        | .terminal _ => none
      | none => none), scans)

/-- Inner loop of `recognise`: process the last state set to a fixed point.
Returns `none` when the fuel runs out (the theorems take successful runs as
a hypothesis and the witnesses run with sufficient concrete fuel). -/
def closureLoop (g : EarleyGrammar) (pos : Nat) :
    Nat → List StateSet → Scans → Option (List StateSet × Scans)
  | 0, _, _ => none
  | fuel + 1, sets, scans =>
    match sets.getLast? with
    | none => none
    | some cur =>
      match cur.set.get? cur.position with
      | none => some (sets, scans)
      | some item =>
        let cur1 : StateSet := { cur with position := cur.position + 1 }
        let step := itemActions g sets pos item scans
        let cur2 := step.1.foldl StateSet.add cur1
        closureLoop g pos fuel (sets.dropLast ++ [cur2]) step.2

/-- Error type of the embedded parsing pipeline (`Error::SyntaxError` is
the only kind the embedded code produces). -/
inductive Error where
  | SyntaxError (message : String) (location : Span)
deriving DecidableEq, Repr

/-- Acceptance test at end of input: the current set holds an item
`(r, 0, |r.elements|)` whose left-hand side is an axiom. -/
def acceptsEof (g : EarleyGrammar) (s : StateSet) : Bool :=
  s.set.any (fun item =>
    let rule := getDef default g.rules item.rule
    item.origin == 0 && decide (rule.id ∈ g.axioms) &&
      rule.elements.length == item.position)

/-- Message of the disallowed-token error, built exactly as in the source
(`intersperse(", ")` over the names of the queued scan terminals). -/
def senselessTokenMsg (lexg : LexerGrammar) (scans : Scans) (name : String) :
    String :=
  let alternatives := String.join (((scansKeys scans).map (fun tok => lexg.name tok)).intersperse ", ")
  s!"The token {name} doesn't make sense here.\nYou could try {alternatives} instead"

/-- Next state built from the scan queue when a token arrives. -/
def nextStateOf (scans : Scans) (t : Token) : StateSet :=
  (scansGet scans t.id).foldl StateSet.add ⟨[], 0⟩

/-- Outer loop of `recognise`.  The lexed stream (not among the provided
files) is modelled from the spec at token granularity: the remaining tokens
are delivered in order; a token is returned when its terminal id is among
the allowed candidates (`default_allowed ∪ scans.keys`), the request fails
otherwise, and an exhausted stream reports end of input; `lastLoc` is the
location of the last returned token (initially the synthetic end-of-file
location). -/
def recogniseLoop (g : EarleyGrammar) (lexg : LexerGrammar) (fuel : Nat) :
    List Token → List StateSet → List Token → Nat → Span →
    Option (Except Error (List StateSet × List Token))
  | remaining, sets, raw, pos, lastLoc =>
    match closureLoop g pos fuel sets [] with
    | none => none
    | some (sets', scans) =>
      match remaining with
      | [] =>
        some (if acceptsEof g (sets'.getLast?.getD default) then
          .ok (sets', raw)
        else
          .error (.SyntaxError "Reached EOF but parsing isn't done." lastLoc))
      | t :: rest =>
        if t.id ∈ lexg.defaultAllowed ++ scansKeys scans then
          recogniseLoop g lexg fuel rest (sets' ++ [nextStateOf scans t])
            (raw ++ [t]) (pos + 1) t.location
        else
          some (.error (.SyntaxError (senselessTokenMsg lexg scans t.name)
            t.location))

/-- Embedding of `EarleyParser::recognise`: seed `S[0]` with `(r, 0, 0)`
for every rule whose left-hand side is an axiom, then run the loop over
the modelled lexed stream. -/
def recognise (g : EarleyGrammar) (lexg : LexerGrammar) (fuel : Nat)
    (tokens : List Token) (eofLoc : Span) :
    Option (Except Error (List StateSet × List Token)) :=
  let first := ((List.range g.rules.length).filter
    (fun id => decide ((getDef default g.rules id).id ∈ g.axioms))).foldl
    (fun s id => s.add { rule := id, origin := 0, position := 0 }) ⟨[], 0⟩
  recogniseLoop g lexg fuel tokens [first] [] 0 eofLoc

/-! ## Forest builder (earley.rs, `EarleyParser::to_forest`) -/

/-- Completed item re-indexed by origin: rule and end position. -/
structure FinalItem where
  rule : Nat
  endPos : Nat
deriving DecidableEq, Repr

instance : Inhabited FinalItem := ⟨⟨0, 0⟩⟩

/-- Final set at one position: the item vector, the index from non-terminal
id to the positions of its items in the vector, and the common start
position. -/
structure FinalSet where
  index : List (Nat × List Nat)
  set : List FinalItem
  position : Nat
deriving DecidableEq, Repr

instance : Inhabited FinalSet := ⟨⟨[], [], 0⟩⟩

/-- Embedding of `FinalSet::add`: record the vector position under the
rule's left-hand side in the index, then push the item. -/
def FinalSet.add (s : FinalSet) (item : FinalItem) (g : EarleyGrammar) :
    FinalSet :=
  { s with
    index := upsertPush s.index (getDef default g.rules item.rule).id s.set.length,
    set := s.set ++ [item] }

/-- Pass over one state set `S[i]` of the chart: add a `FinalItem` ending
at `i` into `forest[origin]` for every completed item.  Returns `none` when
an origin falls outside the forest (an out-of-bounds index panic in the
source). -/
def addFinals (g : EarleyGrammar) (i : Nat) :
    List EarleyItem → List FinalSet → Option (List FinalSet)
  | [], forest => some forest
  | item :: rest, forest =>
    if item.position = (getDef default g.rules item.rule).elements.length then
      if item.origin < forest.length then
        addFinals g i rest
          (listModify (fun fs => fs.add ⟨item.rule, i⟩ g) item.origin forest)
      else none
    else addFinals g i rest forest

/-- Loop of `to_forest` over the chart with the running position `i`:
stamp `forest[i].position`, fail on an empty set, otherwise record its
completed items. -/
def toForestAux (g : EarleyGrammar) (raw : List Token) :
    List StateSet → Nat → List FinalSet →
    Option (Except Error (List FinalSet))
  | [], _, forest => some (.ok forest)
  | s :: rest, i, forest =>
    let forest1 := listModify (fun fs => { fs with position := i }) i forest
    if s.set.isEmpty then
      match raw.get? i with
      | some tok =>
        some (.error (.SyntaxError s!"Syntax error at token {i}" tok.location))
      | none => none
    else
      match addFinals g i s.set forest1 with
      | some forest2 => toForestAux g raw rest (i + 1) forest2
      | none => none

/-- Embedding of `EarleyParser::to_forest` (`none` models a panic). -/
def toForest (g : EarleyGrammar) (table : List StateSet) (raw : List Token) :
    Option (Except Error (List FinalSet)) :=
  toForestAux g raw table 0 (List.replicate table.length default)

/-! ## Tree selector (earley.rs, `find_children` / `build_ast` /
`select_ast`) -/

/-- Kind of a syntactic item: an expanded rule or a consumed token. -/
inductive SyntaxicItemKind where
  | rule (id : Nat)
  | token (t : Token)
deriving DecidableEq, Repr

/-- Syntactic item: a kind together with its input span `[start, endPos)`. -/
structure SyntaxicItem where
  kind : SyntaxicItemKind
  start : Nat
  endPos : Nat
deriving DecidableEq, Repr

/-- Step of the boundary enumeration in `find_children` for one rule
element: every partial child sequence is extended by each way of matching
the element at its current position.  Child sequences are cons lists with
the most recent child at the head, exactly as the source's `List::cons`
stores them.  The new extensions are appended in reverse, mirroring
`boundary.extend(next_boundary.into_iter().rev())` after the drain. -/
def boundaryStep (forest : List FinalSet) (raw : List Token) (elemEnd : Nat)
    (el : RuleElement) (boundary : List (List SyntaxicItem × Nat)) :
    List (List SyntaxicItem × Nat) :=
  (boundary.flatMap (fun br =>
    let (children, curpos) := br
    match el.elementType with
    | .nonTerminal id =>
      match alookup id (getDef default forest curpos).index with
      | some rules =>
        (rules.map (fun r => getDef default (getDef default forest curpos).set r)).filterMap
          (fun finalItem =>
            if finalItem.endPos ≤ elemEnd then
              some ((⟨.rule finalItem.rule, curpos, finalItem.endPos⟩ :
                SyntaxicItem) :: children, finalItem.endPos)
            else none)
      | none => []
    | .terminal id =>
      if curpos < elemEnd ∧ (getDef default raw curpos).id = id then
        [((⟨.token (getDef default raw curpos), curpos, curpos + 1⟩ :
          SyntaxicItem) :: children, curpos + 1)]
      else [])).reverse

/-- Boundary sequences of a rule expansion: fold `boundaryStep` over the
rule's elements starting from the empty sequence at `element.start`. -/
def childSequences (g : EarleyGrammar) (rid : Nat) (element : SyntaxicItem)
    (forest : List FinalSet) (raw : List Token) :
    List (List SyntaxicItem × Nat) :=
  (getDef default g.rules rid).elements.foldl
    (fun boundary el => boundaryStep forest raw element.endPos el boundary)
    [([], element.start)]

/-- Complete boundary sequences: those whose last child ends at
`element.endPos` (still stored in reverse, most recent child first). -/
def completeSequences (g : EarleyGrammar) (rid : Nat)
    (element : SyntaxicItem) (forest : List FinalSet) (raw : List Token) :
    List (List SyntaxicItem) :=
  (childSequences g rid element forest raw).filterMap
    (fun br => if br.2 = element.endPos then some br.1 else none)

/-- Comparator of `find_children`'s `max_by`, operating on the stored
(reversed) child sequences: walk the zipped pairs from the head — that is,
from the LAST child of the expansion — skip any pair in which either side
is a token, order a pair of rule children by start position (direction set
by the rule's associativity) and then by rule id, and let the first
non-equal pair decide. -/
def seqCmp (leftAssoc : Bool) : List SyntaxicItem → List SyntaxicItem →
    Ordering
  | [], _ => .eq
  | _ :: _, [] => .eq
  | left :: ls, right :: rs =>
    match left.kind, right.kind with
    | .rule leftRule, .rule rightRule =>
      let assocOrd := if leftAssoc then compare left.start right.start
        else compare right.start left.start
      let ord := match assocOrd with
        | .eq => compare leftRule rightRule
        | other => other
      (match ord with
      | .eq => seqCmp leftAssoc ls rs
      | other => other)
    | _, _ => seqCmp leftAssoc ls rs

/-- One step of Rust's `Iterator::max_by` fold: keep the accumulator only
when it compares strictly greater, so later elements win ties. -/
def maxStep {α : Type _} (cmp : α → α → Ordering) (acc : Option α) (x : α) :
    Option α :=
  match acc with
  | none => some x
  | some m => if cmp m x = .gt then some m else some x

/-- Rust's `Iterator::max_by`: fold keeping the current maximum, later
elements winning ties. -/
def maxByRust {α : Type _} (cmp : α → α → Ordering) (l : List α) :
    Option α :=
  l.foldl (maxStep cmp) none

/-- Embedding of `EarleyParser::find_children`: enumerate the complete
boundary sequences of the expanded rule, take the maximum under the
source's comparator, and reverse it into forward order.  A token item has
no children; `none` models the `unwrap` panic when no sequence is
complete. -/
def findChildren (g : EarleyGrammar) (element : SyntaxicItem)
    (forest : List FinalSet) (raw : List Token) :
    Option (List SyntaxicItem) :=
  match element.kind with
  | .rule rid =>
    (maxByRust (seqCmp (getDef default g.rules rid).leftAssociative)
      (completeSequences g rid element forest raw)).map List.reverse
  | .token _ => some []

/-! ## Attribute evaluation and AST construction -/

mutual
/-- Evaluation of one proxy value, modelled from the spec (the proxy
evaluator lives in `parser/grammarparser.rs`, not among the provided
files): a literal evaluates to itself as an `AST::Literal` with the node's
span, an attribute reference reads `all_attributes` and marks its key
consumed, and a nested node constructor recurses with its own proxy and
the parent's attribute map; `none` models a panic on a missing key. -/
def ProxyValue.evaluate : ProxyValue → Nat → List (String × AST) →
    List String → List (String × Nat) → Span → Option (AST × List String)
  | .lit v, _, _, removed, _, span => some (.literal v (some span), removed)
  | .ref key, _, allAttributes, removed, _, _ =>
    (match allAttributes.lookup key with
    | some a => some (a, removed ++ [key])
    | none => none)
  | .nodeCons name proxy, nt, allAttributes, removed, idOf, span =>
    (match idOf.lookup name with
    | some id =>
      (match Proxy.evaluateAll proxy nt allAttributes removed idOf span [] with
      | some (attrs, removed') => some (.node id attrs span, removed')
      | none => none)
    | none => none)

/-- Evaluation of a whole proxy in order, accumulating the produced
attribute map and the consumed keys. -/
def Proxy.evaluateAll : Proxy → Nat → List (String × AST) → List String →
    List (String × Nat) → Span → List (String × AST) →
    Option (List (String × AST) × List String)
  | .nil, _, _, removed, _, _, acc => some (acc, removed)
  | .cons key v rest, nt, allAttributes, removed, idOf, span, acc =>
    (match ProxyValue.evaluate v nt allAttributes removed idOf span with
    | some (ast, removed') =>
      Proxy.evaluateAll rest nt allAttributes removed' idOf span
        (setKey acc key ast)
    | none => none)
end

/-- Pairing of the children's ASTs with the rule elements that produced
them (the `filter_map` of `build_ast`): elements with a key store the
child under that key, reading a named attribute out of a node child or an
indexed capture out of a token child; `none` models the `unreachable!`
and missing-index panics. -/
def collectAttrs : List (AST × RuleElement) → List (String × AST) →
    Option (List (String × AST))
  | [], acc => some acc
  | (ast, el) :: rest, acc =>
    match el.key with
    | none => collectAttrs rest acc
    | some key =>
      match el.attr with
      | .named attrName =>
        (match ast with
        | .node _ attributes _ =>
          (match attributes.lookup attrName with
          | some v => collectAttrs rest (setKey acc key v)
          | none => none)
        | _ => none)
      | .indexed idx =>
        (match ast with
        | .terminal token =>
          (match alookup idx token.attrs with
          | some s =>
            collectAttrs rest
              (setKey acc key (.literal (.str s) (some token.location)))
          | none => none)
        | _ => none)
      | .none => collectAttrs rest (setKey acc key ast)

/-- Embedding of `EarleyParser::build_ast` with explicit fuel for the
recursion over child items (`none` models fuel exhaustion or any panic on
the way). -/
def buildAst (g : EarleyGrammar) :
    Nat → SyntaxicItem → List FinalSet → List Token → Option AST
  | 0, _, _, _ => none
  | fuel + 1, item, forest, raw =>
    match item.kind with
    | .token t => some (.terminal t)
    | .rule rid =>
      match raw.get? item.start, raw.get? (item.endPos - 1) with
      | some t1, some t2 =>
        let span := t1.location.sup t2.location
        (match findChildren g item forest raw with
        | none => none
        | some children =>
          (match children.mapM (fun c => buildAst g fuel c forest raw) with
          | none => none
          | some childAsts =>
            (match collectAttrs
                (childAsts.zip (getDef default g.rules rid).elements) [] with
            | none => none
            | some allAttributes =>
              (match Proxy.evaluateAll (getDef default g.rules rid).proxy
                  (getDef default g.rules rid).id allAttributes [] g.idOf
                  span [] with
              | none => none
              | some (proxyAttrs, removed) =>
                let attributes :=
                  (allAttributes.filter
                    (fun kv => !(removed.contains kv.1))).foldl
                    (fun m kv => setKey m kv.1 kv.2) proxyAttrs
                some (.node (getDef default g.rules rid).id attributes span)))))
      | _, _ => none

/-- Root candidates of `select_ast`: items of `forest[0]` that end at the
end of the input and whose rule's left-hand side is an axiom. -/
def rootCandidates (g : EarleyGrammar) (forest : List FinalSet)
    (raw : List Token) : List FinalItem :=
  (getDef default forest 0).set.filter (fun item =>
    item.endPos == raw.length &&
      decide ((getDef default g.rules item.rule).id ∈ g.axioms))

/-- Embedding of `EarleyParser::select_ast`: sort the root candidates with
the key `Reverse(item.rule)` — descending rule id — and build the AST of
the first of them; `none` models the `unwrap` panic on an empty candidate
set. -/
def selectAst (g : EarleyGrammar) (fuel : Nat) (forest : List FinalSet)
    (raw : List Token) : Option AST :=
  match List.insertionSort (fun a b => b.rule ≤ a.rule)
      (rootCandidates g forest raw) with
  | [] => none
  | best :: _ =>
    buildAst g fuel ⟨.rule best.rule, 0, raw.length⟩ forest raw

/-! ## Concrete example inputs used by witnesses and counterexamples -/

/-- Two axiom rules with the same left-hand side `A = 0`, both expanding to
the single terminal `0`, distinguished by their proxies (`v = 0` for rule 0
and `v = 1` for rule 1). -/
def rulesC1 : List Rule :=
  [⟨0, [⟨Attr.none, Option.none, .terminal 0⟩], .cons "v" (.lit (.int 0)) .nil, false⟩,
   ⟨0, [⟨Attr.none, Option.none, .terminal 0⟩], .cons "v" (.lit (.int 1)) .nil, false⟩]

/-- Grammar over `rulesC1` with axiom `A`. -/
def gC1 : EarleyGrammar := EarleyGrammar.new rulesC1 {0} 1 [] ["A"]

/-- One-token input for the `select_ast` examples. -/
def rawC1 : List Token := [⟨0, "T", [], ⟨0, 4⟩⟩]

/-- Forest whose position-0 set holds a completed item for each of the two
axiom rules, both ending at the end of the input. -/
def forestC1 : List FinalSet := [⟨[(0, [0, 1])], [⟨0, 1⟩, ⟨1, 1⟩], 0⟩]

/-! ## Claim C8 -/

/-- Claim C8: building a lexer grammar from a terminal list in which some
terminal is flagged unwanted but carries no error message is specified to
return the `LexerGrammarUnwantedNoDescription` error naming that terminal.
The code reaches exactly that error construction, but the construction's
`span` field is `todo!()`, so evaluating it panics instead of returning
the error value: on the failing input below, `build_from_ast` ends in the
panic while building `LexerGrammarUnwantedNoDescription{token: "ECOMMENT"}`. -/
theorem buildFromAst_unwanted_no_message_panics :
    buildFromAst [⟨"ECOMMENT", "x", false, true, false, Option.none⟩] =
      .panicked (.unwantedNoDescription "ECOMMENT") := rfl

/-! ## Claim C10 -/

/-- Claim C10: called on a forest whose position-0 set has no item that
both ends at `raw_input.len()` and belongs to an axiom rule, `select_ast`
panics (it `unwrap`s the `None` of an empty candidate iterator) instead of
returning an error value; `none` is the embedding of that panic. -/
theorem selectAst_no_candidate_panics (g : EarleyGrammar) (fuel : Nat)
    (forest : List FinalSet) (raw : List Token)
    (h : rootCandidates g forest raw = []) :
    selectAst g fuel forest raw = none := by
  unfold selectAst
  rw [h]
  rfl

/-- Witness for C10: a forest holding only an item that stops short of the
end of the input yields no root candidate, and `select_ast` panics. -/
theorem selectAst_no_candidate_panics_witness :
    rootCandidates gC1 [⟨[(0, [0])], [⟨0, 0⟩], 0⟩] rawC1 = [] ∧
      selectAst gC1 3 [⟨[(0, [0])], [⟨0, 0⟩], 0⟩] rawC1 = none :=
  ⟨by decide, selectAst_no_candidate_panics gC1 3 _ rawC1 (by decide)⟩

/-! ## Claim C1 -/

/-- Counterexample to claim C1: with two axiom rules both spanning the
whole input, the root candidates are the items of rules 0 and 1 (so the
smallest rule id is 0), yet `select_ast` builds the AST of rule 1 — the
largest rule id — because it sorts by the key `Reverse(item.rule)` and
takes the first element of that descending order.  The two rules' proxies
make the resulting ASTs differ. -/
theorem selectAst_picks_largest_not_smallest :
    (rootCandidates gC1 forestC1 rawC1).map FinalItem.rule = [0, 1] ∧
    selectAst gC1 3 forestC1 rawC1 =
      buildAst gC1 3 ⟨.rule 1, 0, 1⟩ forestC1 rawC1 ∧
    buildAst gC1 3 ⟨.rule 0, 0, 1⟩ forestC1 rawC1 =
      some (.node 0 [("v", .literal (.int 0) (some ⟨0, 4⟩))] ⟨0, 4⟩) ∧
    buildAst gC1 3 ⟨.rule 1, 0, 1⟩ forestC1 rawC1 =
      some (.node 0 [("v", .literal (.int 1) (some ⟨0, 4⟩))] ⟨0, 4⟩) ∧
    selectAst gC1 3 forestC1 rawC1 ≠
      buildAst gC1 3 ⟨.rule 0, 0, 1⟩ forestC1 rawC1 := by
  refine ⟨rfl, rfl, rfl, rfl, ?_⟩
  intro h
  rw [show selectAst gC1 3 forestC1 rawC1 =
      some (.node 0 [("v", .literal (.int 1) (some ⟨0, 4⟩))] ⟨0, 4⟩) from rfl,
    show buildAst gC1 3 ⟨.rule 0, 0, 1⟩ forestC1 rawC1 =
      some (.node 0 [("v", .literal (.int 0) (some ⟨0, 4⟩))] ⟨0, 4⟩) from rfl] at h
  simp at h

instance : IsTotal FinalItem (fun a b => b.rule ≤ a.rule) :=
  ⟨fun a b => le_total b.rule a.rule⟩

instance : IsTrans FinalItem (fun a b => b.rule ≤ a.rule) :=
  ⟨fun _ _ _ h1 h2 => le_trans h2 h1⟩

/-- Claim C1 as amended: among the root candidates (items of `forest[0]`
whose end equals the length of `raw_input` and whose rule's left-hand side
is an axiom), `select_ast` picks an item with the LARGEST rule id — later
declared axiom rules win — and builds the returned AST from that item. -/
theorem selectAst_builds_largest_candidate (g : EarleyGrammar) (fuel : Nat)
    (forest : List FinalSet) (raw : List Token)
    (h : rootCandidates g forest raw ≠ []) :
    ∃ best ∈ rootCandidates g forest raw,
      (∀ x ∈ rootCandidates g forest raw, x.rule ≤ best.rule) ∧
      selectAst g fuel forest raw =
        buildAst g fuel ⟨.rule best.rule, 0, raw.length⟩ forest raw := by
  have hperm := List.perm_insertionSort
    (fun a b : FinalItem => b.rule ≤ a.rule) (rootCandidates g forest raw)
  have hsorted := List.sorted_insertionSort
    (fun a b : FinalItem => b.rule ≤ a.rule) (rootCandidates g forest raw)
  cases hs : List.insertionSort (fun a b : FinalItem => b.rule ≤ a.rule)
      (rootCandidates g forest raw) with
  | nil =>
    rw [hs] at hperm
    exact absurd (hperm.symm.eq_nil) h
  | cons best tail =>
    refine ⟨best, ?_, ?_, ?_⟩
    · exact hperm.mem_iff.mp (hs ▸ List.mem_cons_self best tail)
    · intro x hx
      have hx' : x ∈ best :: tail := hs ▸ hperm.mem_iff.mpr hx
      rcases List.mem_cons.mp hx' with rfl | hx''
      · exact le_refl _
      · rw [hs] at hsorted
        exact List.rel_of_sorted_cons hsorted x hx''
    · unfold selectAst
      rw [hs]

/-- Witness for the amended C1 theorem at the concrete two-rule grammar. -/
theorem selectAst_builds_largest_candidate_witness :
    rootCandidates gC1 forestC1 rawC1 ≠ [] ∧
    ∃ best ∈ rootCandidates gC1 forestC1 rawC1,
      (∀ x ∈ rootCandidates gC1 forestC1 rawC1, x.rule ≤ best.rule) ∧
      selectAst gC1 3 forestC1 rawC1 =
        buildAst gC1 3 ⟨.rule best.rule, 0, rawC1.length⟩ forestC1 rawC1 :=
  ⟨by decide,
    selectAst_builds_largest_candidate gC1 3 forestC1 rawC1 (by decide)⟩

/-! ## Claim C9 -/

/-- Membership in `bitInsert` is membership in the set plus the new id. -/
theorem mem_bitInsert {a i : Nat} {l : List Nat} :
    a ∈ bitInsert i l ↔ a = i ∨ a ∈ l := by
  unfold bitInsert
  by_cases h : i ∈ l
  · rw [if_pos h]
    constructor
    · exact Or.inr
    · rintro (rfl | h2)
      · exact h
      · exact h2
  · rw [if_neg h]
    simp [or_comm]

/-- Accumulator lemma for `build_from_ast`: when the loop completes, the
grammar's default-allowed list is the sorted ignore bit set, and that bit
set holds the carried-in ids plus the id of every remaining terminal that
is flagged ignore or unwanted (ids continue from the names gathered so
far). -/
theorem buildFromAstAux_ignores_spec (ts : List TerminalDecl) :
    ∀ (ignores : List Nat) (errors descrs : List (Nat × String))
      (names : List String) (regexes : CompiledRegex) (found : List String)
      (g : LexerGrammar),
      buildFromAstAux ts ignores errors descrs names regexes found = .built g →
      g.defaultAllowed = List.insertionSort (· ≤ ·) g.ignores ∧
      ∀ i, i ∈ g.ignores ↔ (i ∈ ignores ∨
        ∃ j t, ts.get? j = some t ∧ i = names.length + j ∧
          (t.ignore || t.unwanted) = true) := by
  induction ts with
  | nil =>
    intro ignores errors descrs names regexes found g h
    rw [buildFromAstAux] at h
    cases h
    refine ⟨rfl, ?_⟩
    intro i
    simp [LexerGrammar.new]
  | cons t rest ih =>
    intro ignores errors descrs names regexes found g h
    rw [buildFromAstAux] at h
    by_cases hun : (t.unwanted && t.comment.isNone) = true
    · rw [if_pos hun] at h
      exact absurd h (by simp)
    · rw [if_neg hun] at h
      by_cases hdup : t.name ∈ found
      · rw [if_pos hdup] at h
        exact absurd h (by simp)
      · rw [if_neg hdup] at h
        obtain ⟨hda, hmem⟩ := ih _ _ _ _ _ _ _ h
        refine ⟨hda, ?_⟩
        intro i
        rw [hmem i]
        simp only [List.length_append, List.length_singleton]
        constructor
        · rintro (hi | ⟨j, t', hget, hidx, hflag⟩)
          · by_cases hf : (t.ignore || t.unwanted) = true
            · rw [if_pos hf, mem_bitInsert] at hi
              rcases hi with rfl | hi
              · exact Or.inr ⟨0, t, rfl, by omega, hf⟩
              · exact Or.inl hi
            · rw [if_neg hf] at hi
              exact Or.inl hi
          · exact Or.inr ⟨j + 1, t', hget, by omega, hflag⟩
        · rintro (hi | ⟨j, t', hget, hidx, hflag⟩)
          · left
            by_cases hf : (t.ignore || t.unwanted) = true
            · rw [if_pos hf, mem_bitInsert]
              exact Or.inr hi
            · rw [if_neg hf]
              exact hi
          · cases j with
            | zero =>
              simp only [List.get?] at hget
              cases hget
              left
              rw [if_pos hflag, mem_bitInsert]
              exact Or.inl (by omega)
            | succ j' =>
              simp only [List.get?] at hget
              exact Or.inr ⟨j', t', hget, by omega, hflag⟩

/-- Counterexample to claim C9: a terminal flagged only unwanted (with an
error message, so construction succeeds) lands in the default-allowed set:
the built grammar's default-allowed list is `[0]` although the single
declared terminal has `ignore = false`. -/
theorem defaultAllowed_holds_unwanted_only_terminal :
    (match buildFromAst [⟨"E", "x", false, true, false, some "m"⟩] with
      | .built g => some g.defaultAllowed
      | .panicked _ => none) = some [0] ∧
    (⟨"E", "x", false, true, false, some "m"⟩ : TerminalDecl).ignore = false :=
  ⟨rfl, rfl⟩

/-- Claim C9 as amended: for every lexer grammar the loop of
`build_from_ast` builds, the default-allowed terminal set is exactly the
set of terminals flagged ignore OR unwanted (the source inserts a terminal
into the ignore bit set when either flag holds, and `LexerGrammar::new`
takes the default-allowed list from that bit set). -/
theorem defaultAllowed_iff_ignore_or_unwanted
    (ts : List TerminalDecl) (g : LexerGrammar)
    (h : buildFromAst ts = .built g) (i : Nat) :
    i ∈ g.defaultAllowed ↔
      ∃ t, ts.get? i = some t ∧ (t.ignore || t.unwanted) = true := by
  obtain ⟨hda, hmem⟩ := buildFromAstAux_ignores_spec ts [] [] [] [] [] [] g h
  rw [hda, (List.perm_insertionSort (· ≤ ·) g.ignores).mem_iff, hmem i]
  simp only [List.not_mem_nil, false_or, List.length_nil, Nat.zero_add]
  constructor
  · rintro ⟨j, t, h1, rfl, h2⟩
    exact ⟨t, h1, h2⟩
  · rintro ⟨t, h1, h2⟩
    exact ⟨i, t, h1, rfl, h2⟩

/-- Terminal declarations of the amended-C9 witness grammar. -/
def tsC9 : List TerminalDecl :=
  [⟨"WS", "a", true, false, false, Option.none⟩,
   ⟨"E", "b", false, true, false, some "m"⟩,
   ⟨"C", "c", false, false, false, Option.none⟩]

/-- Lexer grammar that `build_from_ast` produces from `tsC9`. -/
def gC9 : LexerGrammar :=
  LexerGrammar.new
    [("a", "WS", false), ("b", "E", false), ("c", "C", false)]
    ["WS", "E", "C"] [0, 1] [(1, "m")] [(1, "m")]

/-- Witness for the amended C9 theorem: a grammar with one ignored, one
unwanted and one plain terminal puts the unwanted terminal (id 1) into the
default-allowed set. -/
theorem defaultAllowed_iff_ignore_or_unwanted_witness :
    buildFromAst tsC9 = .built gC9 ∧
    ((1 ∈ gC9.defaultAllowed) ↔
      ∃ t, tsC9.get? 1 = some t ∧ (t.ignore || t.unwanted) = true) :=
  ⟨rfl, defaultAllowed_iff_ignore_or_unwanted tsC9 gC9 rfl 1⟩

/-! ## Helper lemmas on indexed list access -/

theorem listModify_length {α : Type _} (f : α → α) :
    ∀ (n : Nat) (l : List α), (listModify f n l).length = l.length := by
  intro n l
  induction l generalizing n with
  | nil => cases n <;> rfl
  | cons a as ih => cases n <;> simp [listModify, ih]

theorem listModify_oob {α : Type _} (f : α → α) :
    ∀ (n : Nat) (l : List α), l.length ≤ n → listModify f n l = l := by
  intro n l
  induction l generalizing n with
  | nil => intro _; cases n <;> rfl
  | cons a as ih =>
    intro h
    cases n with
    | zero => exact absurd h (by simp)
    | succ n' => simp [listModify, ih n' (by simpa using h)]

theorem getDef_listModify_self {α : Type _} (d : α) (f : α → α) :
    ∀ (n : Nat) (l : List α), n < l.length →
      getDef d (listModify f n l) n = f (getDef d l n) := by
  intro n l
  induction l generalizing n with
  | nil => intro h; exact absurd h (by simp)
  | cons a as ih =>
    intro h
    cases n with
    | zero => rfl
    | succ n' => exact ih n' (by simpa using h)

theorem getDef_listModify_other {α : Type _} (d : α) (f : α → α) :
    ∀ (n m : Nat) (l : List α), m ≠ n →
      getDef d (listModify f n l) m = getDef d l m := by
  intro n m l
  induction l generalizing n m with
  | nil => intro _; cases n <;> cases m <;> rfl
  | cons a as ih =>
    intro h
    cases n with
    | zero =>
      cases m with
      | zero => exact absurd rfl h
      | succ m' => rfl
    | succ n' =>
      cases m with
      | zero => rfl
      | succ m' => exact ih n' m' (fun he => h (by rw [he]))

theorem getDef_append_left {α : Type _} (d : α) :
    ∀ (l l' : List α) (n : Nat), n < l.length →
      getDef d (l ++ l') n = getDef d l n := by
  intro l l' n
  induction l generalizing n with
  | nil => intro h; exact absurd h (by simp)
  | cons a as ih =>
    intro h
    cases n with
    | zero => rfl
    | succ n' => exact ih n' (by simpa using h)

theorem getDef_eq_get? {α : Type _} (d : α) :
    ∀ (l : List α) (n : Nat), n < l.length → l.get? n = some (getDef d l n) := by
  intro l n
  induction l generalizing n with
  | nil => intro h; exact absurd h (by simp)
  | cons a as ih =>
    intro h
    cases n with
    | zero => rfl
    | succ n' => exact ih n' (by simpa using h)

/-! ## Lemmas about the forest builder -/

theorem FinalSet.add_set (s : FinalSet) (it : FinalItem) (g : EarleyGrammar) :
    (s.add it g).set = s.set ++ [it] := rfl

theorem FinalSet.add_position (s : FinalSet) (it : FinalItem)
    (g : EarleyGrammar) : (s.add it g).position = s.position := rfl

/-- Structure of a successful `addFinals` pass: the forest keeps its length
and its position stamps, existing items persist, and every completed item
of the processed set contributes its `FinalItem` at its origin. -/
theorem addFinals_spec (g : EarleyGrammar) (i : Nat) :
    ∀ (items : List EarleyItem) (forest forest' : List FinalSet),
      addFinals g i items forest = some forest' →
      forest'.length = forest.length ∧
      (∀ p, (getDef default forest' p).position =
        (getDef default forest p).position) ∧
      (∀ p x, x ∈ (getDef default forest p).set →
        x ∈ (getDef default forest' p).set) ∧
      (∀ it ∈ items,
        it.position = (getDef default g.rules it.rule).elements.length →
        FinalItem.mk it.rule i ∈ (getDef default forest' it.origin).set) := by
  intro items
  induction items with
  | nil =>
    intro forest forest' h
    rw [addFinals] at h
    cases h
    exact ⟨rfl, fun _ => rfl, fun _ _ hx => hx, by simp⟩
  | cons it rest ih =>
    intro forest forest' h
    rw [addFinals] at h
    by_cases hcomp : it.position = (getDef default g.rules it.rule).elements.length
    · rw [if_pos hcomp] at h
      by_cases hb : it.origin < forest.length
      · rw [if_pos hb] at h
        set forestM := listModify (fun fs => fs.add ⟨it.rule, i⟩ g) it.origin forest with hM
        obtain ⟨ihlen, ihpos, ihmono, ihadd⟩ := ih forestM forest' h
        have hMlen : forestM.length = forest.length := listModify_length _ _ _
        have hMpos : ∀ p, (getDef default forestM p).position =
            (getDef default forest p).position := by
          intro p
          by_cases hp : p = it.origin
          · subst hp
            rw [hM, getDef_listModify_self _ _ _ _ hb, FinalSet.add_position]
          · rw [hM, getDef_listModify_other _ _ _ _ _ hp]
        have hMmono : ∀ p x, x ∈ (getDef default forest p).set →
            x ∈ (getDef default forestM p).set := by
          intro p x hx
          by_cases hp : p = it.origin
          · subst hp
            rw [hM, getDef_listModify_self _ _ _ _ hb, FinalSet.add_set]
            exact List.mem_append_left _ hx
          · rw [hM, getDef_listModify_other _ _ _ _ _ hp]
            exact hx
        refine ⟨by rw [ihlen, hMlen], fun p => by rw [ihpos p, hMpos p],
          fun p x hx => ihmono p x (hMmono p x hx), ?_⟩
        intro it' hit' hcomp'
        rcases List.mem_cons.mp hit' with rfl | hmem
        · apply ihmono
          rw [hM, getDef_listModify_self _ _ _ _ hb, FinalSet.add_set]
          exact List.mem_append_right _ (List.mem_singleton.mpr rfl)
        · exact ihadd it' hmem hcomp'
      · rw [if_neg hb] at h
        exact absurd h (by simp)
    · rw [if_neg hcomp] at h
      obtain ⟨ihlen, ihpos, ihmono, ihadd⟩ := ih forest forest' h
      refine ⟨ihlen, ihpos, ihmono, ?_⟩
      intro it' hit' hcomp'
      rcases List.mem_cons.mp hit' with rfl | hmem
      · exact absurd hcomp' hcomp
      · exact ihadd it' hmem hcomp'

/-- Totality of `addFinals` when every origin is in bounds. -/
theorem addFinals_total (g : EarleyGrammar) (i : Nat) :
    ∀ (items : List EarleyItem) (forest : List FinalSet),
      (∀ it ∈ items, it.origin < forest.length) →
      ∃ forest', addFinals g i items forest = some forest' ∧
        forest'.length = forest.length := by
  intro items
  induction items with
  | nil =>
    intro forest _
    exact ⟨forest, rfl, rfl⟩
  | cons it rest ih =>
    intro forest hb
    rw [addFinals]
    by_cases hcomp : it.position = (getDef default g.rules it.rule).elements.length
    · rw [if_pos hcomp, if_pos (hb it (List.mem_cons_self it rest))]
      obtain ⟨forest', h1, h2⟩ := ih
        (listModify (fun fs => fs.add ⟨it.rule, i⟩ g) it.origin forest)
        (fun it' hit' => by
          rw [listModify_length]
          exact hb it' (List.mem_cons_of_mem it hit'))
      exact ⟨forest', h1, by rw [h2, listModify_length]⟩
    · rw [if_neg hcomp]
      exact ih forest (fun it' hit' => hb it' (List.mem_cons_of_mem it hit'))

/-- Invariants of a successful `to_forest` loop starting at chart position
`k`: the forest keeps its length, existing items persist, positions outside
the processed window are untouched, each processed position is stamped with
its index, and every completed item of a processed set has its `FinalItem`
recorded at its origin. -/
theorem toForestAux_spec (g : EarleyGrammar) (raw : List Token) :
    ∀ (table : List StateSet) (k : Nat) (forest0 forest : List FinalSet),
      toForestAux g raw table k forest0 = some (.ok forest) →
      forest.length = forest0.length ∧
      (∀ p x, x ∈ (getDef default forest0 p).set →
        x ∈ (getDef default forest p).set) ∧
      (∀ j, (j < k ∨ k + table.length ≤ j) →
        (getDef default forest j).position =
          (getDef default forest0 j).position) ∧
      (∀ j, j < table.length → k + j < forest0.length →
        (getDef default forest (k + j)).position = k + j) ∧
      (∀ j s, table.get? j = some s → ∀ item ∈ s.set,
        item.position = (getDef default g.rules item.rule).elements.length →
        FinalItem.mk item.rule (k + j) ∈
          (getDef default forest item.origin).set) := by
  intro table
  induction table with
  | nil =>
    intro k forest0 forest h
    rw [toForestAux] at h
    cases h
    refine ⟨rfl, fun _ _ hx => hx, fun _ _ => rfl, ?_, ?_⟩
    · intro j hj
      exact absurd hj (by simp)
    · intro j s hs
      exact absurd hs (by simp)
  | cons s0 rest ih =>
    intro k forest0 forest h
    rw [toForestAux] at h
    set forest1 := listModify (fun fs => { fs with position := k }) k forest0
      with hF1
    by_cases hE : s0.set.isEmpty
    · rw [if_pos hE] at h
      cases hr : raw.get? k <;> rw [hr] at h <;> exact absurd h (by simp)
    · rw [if_neg hE] at h
      cases hAF : addFinals g k s0.set forest1 with
      | none =>
        rw [hAF] at h
        exact absurd h (by simp)
      | some forest2 =>
        rw [hAF] at h
        obtain ⟨aflen, afpos, afmono, afadd⟩ := addFinals_spec g k s0.set
          forest1 forest2 hAF
        obtain ⟨ihlen, ihmono, ihout, ihstamp, ihitems⟩ := ih (k + 1)
          forest2 forest h
        have hF1len : forest1.length = forest0.length := listModify_length _ _ _
        have hF1set : ∀ p, (getDef default forest1 p).set =
            (getDef default forest0 p).set := by
          intro p
          by_cases hp : p = k
          · subst hp
            by_cases hb : p < forest0.length
            · rw [hF1, getDef_listModify_self _ _ _ _ hb]
            · rw [hF1, listModify_oob _ _ _ (by omega)]
          · rw [hF1, getDef_listModify_other _ _ _ _ _ hp]
        have hF1pos : ∀ p, p ≠ k → (getDef default forest1 p).position =
            (getDef default forest0 p).position := by
          intro p hp
          rw [hF1, getDef_listModify_other _ _ _ _ _ hp]
        refine ⟨by rw [ihlen, aflen, hF1len], ?_, ?_, ?_, ?_⟩
        · intro p x hx
          exact ihmono p x (afmono p x (by rw [hF1set p]; exact hx))
        · intro j hj
          have hjk : j ≠ k := by
            rcases hj with hj | hj
            · omega
            · simp only [List.length_cons] at hj
              omega
          have : (getDef default forest j).position =
              (getDef default forest2 j).position := by
            apply ihout
            rcases hj with hj | hj
            · left; omega
            · right
              simp only [List.length_cons] at hj
              omega
          rw [this, afpos j, hF1pos j hjk]
        · intro j hj hb
          cases j with
          | zero =>
            have hbk : k < forest0.length := by omega
            have h1 : (getDef default forest1 k).position = k := by
              rw [hF1, getDef_listModify_self _ _ _ _ hbk]
            have h2 : (getDef default forest (k + 0)).position =
                (getDef default forest2 (k + 0)).position := by
              apply ihout
              left
              omega
            rw [h2]
            simp only [Nat.add_zero]
            rw [afpos k, h1]
          | succ j' =>
            have := ihstamp j' (by simpa using hj)
              (by rw [aflen, hF1len]; omega)
            have harith : k + 1 + j' = k + (j' + 1) := by omega
            rw [harith] at this
            exact this
        · intro j s hs item hitem hcomp
          cases j with
          | zero =>
            simp only [List.get?] at hs
            cases hs
            have := afadd item hitem hcomp
            simpa using ihmono item.origin _ this
          | succ j' =>
            simp only [List.get?] at hs
            have := ihitems j' s hs item hitem hcomp
            have harith : k + 1 + j' = k + (j' + 1) := by omega
            rw [harith] at this
            exact this

/-! ## Claim C6 -/

/-- Claim C6: on every chart and raw input on which `to_forest` succeeds,
the returned forest has one final set per chart position with
`forest[i].position = i`, and `forest[i]` holds a `FinalItem {rule, end=j}`
for every completed item of `S[j]` whose origin is `i`. -/
theorem toForest_invariants (g : EarleyGrammar) (table : List StateSet)
    (raw : List Token) (forest : List FinalSet)
    (h : toForest g table raw = some (.ok forest)) :
    forest.length = table.length ∧
    (∀ i, i < table.length → (getDef default forest i).position = i) ∧
    (∀ j s, table.get? j = some s → ∀ item ∈ s.set,
      item.position = (getDef default g.rules item.rule).elements.length →
      FinalItem.mk item.rule j ∈ (getDef default forest item.origin).set) := by
  obtain ⟨hlen, _, _, hstamp, hitems⟩ := toForestAux_spec g raw table 0
    (List.replicate table.length default) forest h
  refine ⟨by rw [hlen, List.length_replicate], ?_, ?_⟩
  · intro i hi
    have := hstamp i hi (by rw [List.length_replicate]; omega)
    simpa using this
  · intro j s hs item hitem hcomp
    have := hitems j s hs item hitem hcomp
    simpa using this

/-- Witness for C6 on a one-set chart holding a single completed item. -/
theorem toForest_invariants_witness :
    toForest gC1 [⟨[⟨0, 0, 1⟩], 0⟩] [] =
      some (.ok [⟨[(0, [0])], [⟨0, 0⟩], 0⟩]) ∧
    ([⟨[(0, [0])], [⟨0, 0⟩], 0⟩] : List FinalSet).length =
      ([⟨[⟨0, 0, 1⟩], 0⟩] : List StateSet).length ∧
    (∀ i, i < ([⟨[⟨0, 0, 1⟩], 0⟩] : List StateSet).length →
      (getDef default [(⟨[(0, [0])], [⟨0, 0⟩], 0⟩ : FinalSet)] i).position = i) ∧
    (∀ j s, ([⟨[⟨0, 0, 1⟩], 0⟩] : List StateSet).get? j = some s →
      ∀ item ∈ s.set,
      item.position = (getDef default gC1.rules item.rule).elements.length →
      FinalItem.mk item.rule j ∈
        (getDef default [(⟨[(0, [0])], [⟨0, 0⟩], 0⟩ : FinalSet)] item.origin).set) :=
  ⟨rfl, toForest_invariants gC1 [⟨[⟨0, 0, 1⟩], 0⟩] [] _ rfl⟩

/-! ## Claim C7 -/

/-- Error propagation of the `to_forest` loop: if position `i` of the
remaining chart is the first empty set and the origins before it stay in
bounds, the loop fails with the syntax error naming absolute position
`k + i` and located at `raw_input[k + i]`. -/
theorem toForestAux_first_empty (g : EarleyGrammar) (raw : List Token) :
    ∀ (table : List StateSet) (k : Nat) (forest : List FinalSet) (i : Nat)
      (s : StateSet) (tok : Token),
      table.get? i = some s → s.set.isEmpty = true →
      (∀ j < i, ∀ s', table.get? j = some s' → s'.set.isEmpty = false) →
      raw.get? (k + i) = some tok →
      (∀ j < i, ∀ s', table.get? j = some s' →
        ∀ it ∈ s'.set, it.origin < forest.length) →
      toForestAux g raw table k forest =
        some (.error (.SyntaxError s!"Syntax error at token {k + i}"
          tok.location)) := by
  intro table
  induction table with
  | nil =>
    intro k forest i s tok hs
    exact absurd hs (by simp)
  | cons s0 rest ih =>
    intro k forest i s tok hs hE hfirst htok horigin
    rw [toForestAux]
    cases i with
    | zero =>
      simp only [List.get?] at hs
      cases hs
      rw [if_pos hE]
      rw [show k + 0 = k from rfl] at htok
      rw [htok]
      rfl
    | succ i' =>
      simp only [List.get?] at hs
      have h0 : s0.set.isEmpty = false := hfirst 0 (by omega) s0 rfl
      rw [if_neg (by rw [h0]; exact Bool.false_ne_true)]
      have hb : ∀ it ∈ s0.set, it.origin <
          (listModify (fun fs => { fs with position := k }) k forest).length := by
        rw [listModify_length]
        exact horigin 0 (by omega) s0 rfl
      obtain ⟨forest2, hAF, hlen2⟩ := addFinals_total g k s0.set _ hb
      rw [hAF]
      have hrec := ih (k + 1) forest2 i' s tok hs hE
        (fun j hj s' hs' => hfirst (j + 1) (by omega) s' hs')
        (by rw [show k + 1 + i' = k + (i' + 1) from by omega]; exact htok)
        (fun j hj s' hs' it hit => by
          rw [hlen2, listModify_length]
          exact horigin (j + 1) (by omega) s' hs' it hit)
      rw [show k + 1 + i' = k + (i' + 1) from by omega] at hrec
      exact hrec

/-- Claim C7: when `S[i]` is the first empty state set of the chart and
`i` indexes a consumed token (whose origins so far stay inside the chart,
as every real chart's do), `to_forest` fails with the syntax error
`"Syntax error at token i"` located at `raw_input[i]` and returns no
forest. -/
theorem toForest_empty_set_error (g : EarleyGrammar) (table : List StateSet)
    (raw : List Token) (i : Nat) (s : StateSet) (tok : Token)
    (hs : table.get? i = some s) (hE : s.set.isEmpty = true)
    (hfirst : ∀ j < i, ∀ s', table.get? j = some s' →
      s'.set.isEmpty = false)
    (htok : raw.get? i = some tok)
    (horigin : ∀ j < i, ∀ s', table.get? j = some s' →
      ∀ it ∈ s'.set, it.origin < table.length) :
    toForest g table raw =
      some (.error (.SyntaxError s!"Syntax error at token {i}"
        tok.location)) := by
  unfold toForest
  have := toForestAux_first_empty g raw table 0
    (List.replicate table.length default) i s tok hs hE hfirst
    (by simpa using htok)
    (by rw [List.length_replicate]; exact horigin)
  simpa using this

/-- Chart of the C7 witness: a nonempty `S[0]` and an empty `S[1]`. -/
def tableC7 : List StateSet := [⟨[⟨0, 0, 0⟩], 0⟩, ⟨[], 0⟩]

/-- Raw input of the C7 witness. -/
def rawC7 : List Token := [⟨0, "a", [], ⟨0, 1⟩⟩, ⟨0, "b", [], ⟨1, 2⟩⟩]

/-- Witness for C7: the empty `S[1]` yields `"Syntax error at token 1"`
at the second token's location. -/
theorem toForest_empty_set_error_witness :
    toForest gC1 tableC7 rawC7 =
      some (.error (.SyntaxError "Syntax error at token 1" ⟨1, 2⟩)) := by
  have := toForest_empty_set_error gC1 tableC7 rawC7 1 ⟨[], 0⟩
    ⟨0, "b", [], ⟨1, 2⟩⟩ rfl rfl
    (by
      intro j hj s' hs'
      have hz : j = 0 := by omega
      subst hz
      simp only [tableC7, List.get?] at hs'
      cases hs'
      rfl)
    rfl
    (by
      intro j hj s' hs' it hit
      have hz : j = 0 := by omega
      subst hz
      simp only [tableC7, List.get?] at hs'
      cases hs'
      simp only [List.mem_singleton] at hit
      subst hit
      simp [tableC7])
  simpa using this

/-! ## Lemmas about state sets and the closure loop -/

theorem StateSet.add_set_append (s : StateSet) (y : EarleyItem) :
    ∃ t, (s.add y).set = s.set ++ t := by
  unfold StateSet.add
  split
  · exact ⟨[], by simp⟩
  · exact ⟨[y], rfl⟩

theorem StateSet.add_position_eq (s : StateSet) (y : EarleyItem) :
    (s.add y).position = s.position := by
  unfold StateSet.add
  split <;> rfl

theorem StateSet.mem_add_self (s : StateSet) (y : EarleyItem) :
    y ∈ (s.add y).set := by
  unfold StateSet.add
  split
  · assumption
  · exact List.mem_append_right _ (List.mem_singleton.mpr rfl)

theorem foldl_add_set_append (l : List EarleyItem) :
    ∀ s : StateSet, ∃ t, (l.foldl StateSet.add s).set = s.set ++ t := by
  induction l with
  | nil => exact fun s => ⟨[], by simp⟩
  | cons y rest ih =>
    intro s
    obtain ⟨t1, h1⟩ := StateSet.add_set_append s y
    obtain ⟨t2, h2⟩ := ih (s.add y)
    exact ⟨t1 ++ t2, by rw [List.foldl_cons, h2, h1, List.append_assoc]⟩

theorem foldl_add_position (l : List EarleyItem) :
    ∀ s : StateSet, (l.foldl StateSet.add s).position = s.position := by
  induction l with
  | nil => exact fun _ => rfl
  | cons y rest ih =>
    intro s
    rw [List.foldl_cons, ih, StateSet.add_position_eq]

theorem foldl_add_mem_of_mem (l : List EarleyItem) :
    ∀ (s : StateSet) (x : EarleyItem), x ∈ s.set →
      x ∈ (l.foldl StateSet.add s).set := by
  induction l with
  | nil => exact fun _ _ hx => hx
  | cons y rest ih =>
    intro s x hx
    apply ih
    obtain ⟨t, ht⟩ := StateSet.add_set_append s y
    rw [ht]
    exact List.mem_append_left _ hx

theorem foldl_add_mem (l : List EarleyItem) :
    ∀ (s : StateSet) (x : EarleyItem), x ∈ l →
      x ∈ (l.foldl StateSet.add s).set := by
  induction l with
  | nil =>
    intro s x hx
    exact absurd hx (by simp)
  | cons y rest ih =>
    intro s x hx
    rcases List.mem_cons.mp hx with rfl | hx'
    · exact foldl_add_mem_of_mem rest _ x (StateSet.mem_add_self s x)
    · exact ih _ x hx'

theorem getLast?_append_singleton {α : Type _} (l : List α) (a : α) :
    (l ++ [a]).getLast? = some a :=
  List.getLast?_concat l

/-- Additions performed by the prediction branch: when the next element of
the processed item is a nullable non-terminal `A`, the `to_be_added` batch
holds `(r, pos, 0)` for every rule of `A` and the item advanced by one
position (the epsilon-skip). -/
theorem itemActions_nullable (g : EarleyGrammar) (sets : List StateSet)
    (pos : Nat) (item : EarleyItem) (scans : Scans) (el : RuleElement)
    (A : Nat)
    (hel : (getDef default g.rules item.rule).elements.get? item.position =
      some el)
    (hA : el.elementType = .nonTerminal A) (hnull : A ∈ g.nullables) :
    (⟨item.rule, item.origin, item.position + 1⟩ : EarleyItem) ∈
      (itemActions g sets pos item scans).1 ∧
    ∀ r ∈ getDef [] g.rulesOf A,
      (⟨r, pos, 0⟩ : EarleyItem) ∈ (itemActions g sets pos item scans).1 := by
  obtain ⟨attr, key, etype⟩ := el
  dsimp only at hA
  subst hA
  unfold itemActions
  rw [hel]
  dsimp only
  rw [if_pos hnull]
  constructor
  · exact List.mem_append_right _ (List.mem_singleton.mpr rfl)
  · intro r hr
    exact List.mem_append_left _ (List.mem_map.mpr ⟨r, hr, rfl⟩)

/-- Property of the items of `S[k]` already processed by the inner loop
(those before the cursor): if such an item's next element is a nullable
non-terminal `A`, the set already holds the predictions of `A` and the
epsilon-skipped advance of the item itself. -/
def ProcessedUpTo (g : EarleyGrammar) (pos : Nat) (cur : StateSet) : Prop :=
  ∀ idx, idx < cur.position → ∀ item, cur.set.get? idx = some item →
    ∀ el A,
      (getDef default g.rules item.rule).elements.get? item.position =
        some el →
      el.elementType = .nonTerminal A → A ∈ g.nullables →
      (⟨item.rule, item.origin, item.position + 1⟩ : EarleyItem) ∈ cur.set ∧
      ∀ r ∈ getDef [] g.rulesOf A,
        (⟨r, pos, 0⟩ : EarleyItem) ∈ cur.set

/-- Invariant propagation of the closure loop: starting from a current set
whose processed prefix satisfies `ProcessedUpTo`, a successful run ends in
a current set that satisfies it with every item processed. -/
theorem closureLoop_inv (g : EarleyGrammar) (pos : Nat) :
    ∀ (fuel : Nat) (sets : List StateSet) (scans : Scans)
      (sets' : List StateSet) (scans' : Scans),
      closureLoop g pos fuel sets scans = some (sets', scans') →
      ∀ cur, sets.getLast? = some cur → ProcessedUpTo g pos cur →
      ∃ cur', sets'.getLast? = some cur' ∧ ProcessedUpTo g pos cur' ∧
        cur'.set.length ≤ cur'.position := by
  intro fuel
  induction fuel with
  | zero =>
    intro sets scans sets' scans' h
    exact absurd h (by rw [closureLoop]; simp)
  | succ fuel ih =>
    intro sets scans sets' scans' h cur hlast hinv
    rw [closureLoop] at h
    rw [hlast] at h
    dsimp only at h
    cases hget : cur.set.get? cur.position with
    | none =>
      rw [hget] at h
      cases h
      exact ⟨cur, hlast, hinv, List.get?_eq_none.mp hget⟩
    | some item =>
      rw [hget] at h
      dsimp only at h
      obtain ⟨hcurlt, -⟩ := List.get?_eq_some.mp hget
      set step := itemActions g sets pos item scans with hstep
      set cur1 : StateSet := { cur with position := cur.position + 1 }
        with hcur1
      set cur2 := step.1.foldl StateSet.add cur1 with hcur2
      have hlast2 : (sets.dropLast ++ [cur2]).getLast? = some cur2 :=
        getLast?_append_singleton _ _
      obtain ⟨t, hset2⟩ := foldl_add_set_append step.1 cur1
      have hset2' : cur2.set = cur.set ++ t := hset2
      have hpos2 : cur2.position = cur.position + 1 := by
        rw [hcur2, foldl_add_position]
      have hmono : ∀ x, x ∈ cur.set → x ∈ cur2.set := by
        intro x hx
        rw [hset2']
        exact List.mem_append_left _ hx
      have hpre : ∀ idx, idx < cur.set.length →
          cur2.set.get? idx = cur.set.get? idx := by
        intro idx hidx
        rw [hset2']
        exact List.get?_append hidx
      have hinv2 : ProcessedUpTo g pos cur2 := by
        intro idx hidx item' hitem' el A hel hA hnull
        rw [hpos2] at hidx
        rcases Nat.lt_succ_iff_lt_or_eq.mp hidx with hlt | heq
        · have hit : cur.set.get? idx = some item' := by
            rw [← hpre idx (by omega)]
            exact hitem'
          obtain ⟨h1, h2⟩ := hinv idx hlt item' hit el A hel hA hnull
          exact ⟨hmono _ h1, fun r hr => hmono _ (h2 r hr)⟩
        · subst heq
          have hii : item' = item := by
            have h1 := (hitem'.symm.trans (hpre _ hcurlt)).trans hget
            exact Option.some.inj h1
          rw [hii] at hel ⊢
          obtain ⟨ha, hb⟩ := itemActions_nullable g sets pos item scans el A
            hel hA hnull
          rw [← hstep] at ha hb
          exact ⟨foldl_add_mem _ _ _ ha, fun r hr => foldl_add_mem _ _ _ (hb r hr)⟩
      exact ih _ _ _ _ h cur2 hlast2 hinv2

/-! ## Claim C4 -/

/-- Claim C4: during prediction, every processed item of `S[k]` whose next
element is a nullable non-terminal `A` causes both `(r, k, 0)` for every
rule `r` of `A` and the item advanced by one position (the epsilon-skip)
to be members of `S[k]`; after a completed closure pass every item of the
set has been processed, so the property holds of all of them. -/
theorem recognise_prediction_nullable_skip (g : EarleyGrammar)
    (pos fuel : Nat) (sets sets' : List StateSet) (scans scans' : Scans)
    (cur cur' : StateSet)
    (hstart : sets.getLast? = some cur) (hcur0 : cur.position = 0)
    (hcl : closureLoop g pos fuel sets scans = some (sets', scans'))
    (hlast : sets'.getLast? = some cur') :
    ∀ item ∈ cur'.set, ∀ el A,
      (getDef default g.rules item.rule).elements.get? item.position =
        some el →
      el.elementType = .nonTerminal A → A ∈ g.nullables →
      (⟨item.rule, item.origin, item.position + 1⟩ : EarleyItem) ∈ cur'.set ∧
      ∀ r ∈ getDef [] g.rulesOf A,
        (⟨r, pos, 0⟩ : EarleyItem) ∈ cur'.set := by
  obtain ⟨cur'', hlast'', hinv'', hlen''⟩ :=
    closureLoop_inv g pos fuel sets scans sets' scans' hcl cur hstart
      (by
        intro idx hidx
        rw [hcur0] at hidx
        exact absurd hidx (Nat.not_lt_zero idx))
  have hcc : cur'' = cur' := Option.some.inj (hlast''.symm.trans hlast)
  subst hcc
  intro item hitem el A hel hA hnull
  obtain ⟨idx, hidx⟩ := List.get?_of_mem hitem
  obtain ⟨hlt, -⟩ := List.get?_eq_some.mp hidx
  exact hinv'' idx (lt_of_lt_of_le hlt hlen'') item hidx el A hel hA hnull

/-- Rules of the nullable example grammar `@A ::= | B ; B ::= A ;`. -/
def rulesNull : List Rule :=
  [⟨0, [], .nil, false⟩,
   ⟨0, [⟨Attr.none, Option.none, .nonTerminal 1⟩], .nil, false⟩,
   ⟨1, [⟨Attr.none, Option.none, .nonTerminal 0⟩], .nil, false⟩]

/-- Grammar over `rulesNull` with axiom `A` (both non-terminals are
nullable). -/
def gNull : EarleyGrammar := EarleyGrammar.new rulesNull {0} 2 [] ["A", "B"]

/-- State set reached by the closure pass of `gNull` on empty input: the
five items of the source's `recognise_handle_empty_rules` test. -/
def closedNull : StateSet :=
  ⟨[⟨0, 0, 0⟩, ⟨1, 0, 0⟩, ⟨2, 0, 0⟩, ⟨1, 0, 1⟩, ⟨2, 0, 1⟩], 5⟩

/-- Witness for C4 on the nullable grammar: the closure of the seeded
`S[0]` processes `A → ·B` (whose next element `B` is nullable) and the set
indeed holds the epsilon-skip `A → B·` and `B`'s predictions. -/
theorem recognise_prediction_nullable_skip_witness :
    closureLoop gNull 0 6 [⟨[⟨0, 0, 0⟩, ⟨1, 0, 0⟩], 0⟩] [] =
      some ([closedNull], []) ∧
    ∀ item ∈ closedNull.set, ∀ el A,
      (getDef default gNull.rules item.rule).elements.get? item.position =
        some el →
      el.elementType = .nonTerminal A → A ∈ gNull.nullables →
      (⟨item.rule, item.origin, item.position + 1⟩ : EarleyItem) ∈
        closedNull.set ∧
      ∀ r ∈ getDef [] gNull.rulesOf A,
        (⟨r, 0, 0⟩ : EarleyItem) ∈ closedNull.set :=
  ⟨rfl, recognise_prediction_nullable_skip gNull 0 6
    [⟨[⟨0, 0, 0⟩, ⟨1, 0, 0⟩], 0⟩] [closedNull] [] []
    ⟨[⟨0, 0, 0⟩, ⟨1, 0, 0⟩], 0⟩ closedNull rfl rfl rfl rfl⟩

/-! ## Claim C3 -/

/-- Boolean acceptance test unfolded into the predicate of the claim. -/
theorem acceptsEof_iff (g : EarleyGrammar) (s : StateSet) :
    acceptsEof g s = true ↔ ∃ item ∈ s.set, item.origin = 0 ∧
      (getDef default g.rules item.rule).id ∈ g.axioms ∧
      (getDef default g.rules item.rule).elements.length = item.position := by
  unfold acceptsEof
  rw [List.any_eq_true]
  simp only [Bool.and_eq_true, decide_eq_true_eq, beq_iff_eq]
  constructor
  · rintro ⟨x, hx, ⟨⟨h1, h2⟩, h3⟩⟩
    exact ⟨x, hx, h1, h2, h3⟩
  · rintro ⟨x, hx, h1, h2, h3⟩
    exact ⟨x, hx, ⟨h1, h2⟩, h3⟩

/-- Claim C3: when the lexed stream yields no further token, `recognise`
returns the chart and the consumed token vector if and only if the closed
current state set holds a completed item `(r, 0, |r.elements|)` whose rule's
left-hand side is an axiom; otherwise it fails with the syntax error
`"Reached EOF but parsing isn't done."` at the stream's last location. -/
theorem recognise_eof_decision (g : EarleyGrammar) (lexg : LexerGrammar)
    (fuel : Nat) (sets : List StateSet) (raw : List Token) (pos : Nat)
    (lastLoc : Span) (sets' : List StateSet) (scans : Scans)
    (hcl : closureLoop g pos fuel sets [] = some (sets', scans)) :
    (recogniseLoop g lexg fuel [] sets raw pos lastLoc =
        some (.ok (sets', raw)) ↔
      ∃ item ∈ (sets'.getLast?.getD default).set, item.origin = 0 ∧
        (getDef default g.rules item.rule).id ∈ g.axioms ∧
        (getDef default g.rules item.rule).elements.length = item.position) ∧
    ((¬ ∃ item ∈ (sets'.getLast?.getD default).set, item.origin = 0 ∧
        (getDef default g.rules item.rule).id ∈ g.axioms ∧
        (getDef default g.rules item.rule).elements.length = item.position) →
      recogniseLoop g lexg fuel [] sets raw pos lastLoc =
        some (.error (.SyntaxError "Reached EOF but parsing isn't done."
          lastLoc))) := by
  rw [recogniseLoop, hcl]
  dsimp only
  by_cases hacc : acceptsEof g (sets'.getLast?.getD default) = true
  · rw [if_pos hacc]
    constructor
    · exact iff_of_true rfl ((acceptsEof_iff _ _).mp hacc)
    · intro hne
      exact absurd ((acceptsEof_iff _ _).mp hacc) hne
  · rw [if_neg hacc]
    constructor
    · apply iff_of_false
      · intro hEq
        exact Except.noConfusion (Option.some.inj hEq)
      · intro hex
        exact hacc ((acceptsEof_iff _ _).mpr hex)
    · intro _
      rfl

/-- Empty lexer grammar used where the recognizer's end-of-file handling
does not consult the lexer. -/
def lexgEmpty : LexerGrammar := LexerGrammar.new [] [] [] [] []

/-- Witness for C3: on `gC1` with no token consumed, the closed `S[0]`
holds no completed axiom item, and the end-of-input decision is the
`"Reached EOF but parsing isn't done."` error. -/
theorem recognise_eof_decision_witness :
    closureLoop gC1 0 3 [⟨[⟨0, 0, 0⟩, ⟨1, 0, 0⟩], 0⟩] [] =
      some ([⟨[⟨0, 0, 0⟩, ⟨1, 0, 0⟩], 2⟩], [(0, [⟨0, 0, 1⟩, ⟨1, 0, 1⟩])]) ∧
    recogniseLoop gC1 lexgEmpty 3 [] [⟨[⟨0, 0, 0⟩, ⟨1, 0, 0⟩], 0⟩] [] 0 ⟨0, 0⟩ =
      some (.error (.SyntaxError "Reached EOF but parsing isn't done."
        ⟨0, 0⟩)) :=
  ⟨rfl,
    (recognise_eof_decision gC1 lexgEmpty 3 [⟨[⟨0, 0, 0⟩, ⟨1, 0, 0⟩], 0⟩] [] 0
      ⟨0, 0⟩ [⟨[⟨0, 0, 0⟩, ⟨1, 0, 0⟩], 2⟩] [(0, [⟨0, 0, 1⟩, ⟨1, 0, 1⟩])]
      rfl).2 (by decide)⟩

/-! ## Claim C5: nullability closure -/

theorem getDef_mem {α : Type _} (d : α) :
    ∀ (l : List α) (i : Nat), i < l.length → getDef d l i ∈ l := by
  intro l
  induction l with
  | nil =>
    intro i h
    exact absurd h (by simp)
  | cons a as ih =>
    intro i h
    cases i with
    | zero => exact List.mem_cons_self a as
    | succ i' => exact List.mem_cons_of_mem a (ih i' (by simpa using h))

/-- Unfolding of the `all elements nullable` test into its predicate. -/
theorem allNullable_iff (S : Finset Nat) (elements : List RuleElement) :
    allNullable S elements = true ↔
      ∀ el ∈ elements, ∃ B, el.elementType = .nonTerminal B ∧ B ∈ S := by
  unfold allNullable
  rw [List.all_eq_true]
  constructor
  · intro h el hel
    have := h el hel
    cases hety : el.elementType with
    | nonTerminal B =>
      rw [hety] at this
      exact ⟨B, rfl, by simpa using this⟩
    | terminal t =>
      rw [hety] at this
      exact absurd this (by simp)
  · intro h el hel
    obtain ⟨B, hB, hBS⟩ := h el hel
    rw [hB]
    simpa using hBS

theorem allNullable_mono {S S' : Finset Nat} (hss : S ⊆ S')
    (elements : List RuleElement) (h : allNullable S elements = true) :
    allNullable S' elements = true := by
  rw [allNullable_iff] at h ⊢
  intro el hel
  obtain ⟨B, h1, h2⟩ := h el hel
  exact ⟨B, h1, hss h2⟩

/-- When a rule becomes all-nullable in a grown set, some element's
non-terminal is freshly nullable. -/
theorem allNullable_new_witness {S S' : Finset Nat}
    (elements : List RuleElement)
    (hold : ¬ allNullable S elements = true)
    (hnew : allNullable S' elements = true) :
    ∃ el ∈ elements, ∃ B, el.elementType = .nonTerminal B ∧
      B ∉ S ∧ B ∈ S' := by
  rw [allNullable_iff] at hnew
  by_contra hcon
  push_neg at hcon
  apply hold
  rw [allNullable_iff]
  intro el hel
  obtain ⟨B, h1, h2⟩ := hnew el hel
  refine ⟨B, h1, ?_⟩
  by_contra hBS
  exact hBS (absurd (hcon el hel B h1 hBS h2) (by simp))

/-- Justification of nullability of `A` by one rule: the rule's left-hand
side is `A` and every right-hand-side element is a non-terminal in `S`
(vacuously so for an empty right-hand side). -/
def NullJustified (rules : List Rule) (S : Finset Nat) (A : Nat) : Prop :=
  ∃ r ∈ rules, r.id = A ∧
    ∀ el ∈ r.elements, ∃ B, el.elementType = .nonTerminal B ∧ B ∈ S

/-- Closedness of a set under the nullability rule. -/
def NullClosed (rules : List Rule) (S : Finset Nat) : Prop :=
  ∀ A, NullJustified rules S A → A ∈ S

/-- Occurrence of non-terminal `B` on the right-hand side of `rules[i]`. -/
def ntOccursAt (rules : List Rule) (i B : Nat) : Prop :=
  ∃ el ∈ (getDef default rules i).elements, el.elementType = .nonTerminal B

/-- Specification of the inner worklist pass over `is_in[current]`. -/
theorem processRules_spec (rules : List Rule) (nbNT : Nat)
    (hwf : ∀ r ∈ rules, r.id < nbNT) :
    ∀ (ids : List Nat) (S : Finset Nat) (acc : List Nat),
      (∀ i ∈ ids, i < rules.length) →
      S ⊆ (processRules rules ids S acc).1 ∧
      (processRules rules ids S acc).1.card + acc.length =
        S.card + (processRules rules ids S acc).2.length ∧
      (S ⊆ Finset.range nbNT →
        (processRules rules ids S acc).1 ⊆ Finset.range nbNT) ∧
      (∀ T, NullClosed rules T → S ⊆ T →
        (processRules rules ids S acc).1 ⊆ T) ∧
      (∀ x ∈ (processRules rules ids S acc).1, x ∈ S ∨
        x ∈ (processRules rules ids S acc).2) ∧
      (∀ x ∈ acc, x ∈ (processRules rules ids S acc).2) ∧
      (∀ i ∈ ids, allNullable S (getDef default rules i).elements = true →
        (getDef default rules i).id ∈ (processRules rules ids S acc).1) := by
  intro ids
  induction ids with
  | nil =>
    intro S acc _
    rw [processRules]
    refine ⟨Finset.Subset.refl S, rfl, fun h => h, fun T _ h => h,
      fun x hx => Or.inl hx, fun x hx => hx, ?_⟩
    intro i hi
    exact absurd hi (by simp)
  | cons rid rest ih =>
    intro S acc hvalid
    rw [processRules]
    have hridlen : rid < rules.length := hvalid rid (List.mem_cons_self _ _)
    have hrvalid : ∀ i ∈ rest, i < rules.length :=
      fun i hi => hvalid i (List.mem_cons_of_mem _ hi)
    by_cases hc : (getDef default rules rid).id ∉ S ∧
        allNullable S (getDef default rules rid).elements = true
    · rw [if_pos hc]
      set lhs := (getDef default rules rid).id with hlhs
      obtain ⟨ih1, ih2, ih3, ih4, ih5, ih6, ih7⟩ :=
        ih (insert lhs S) (acc ++ [lhs]) hrvalid
      have hSsub : S ⊆ insert lhs S := Finset.subset_insert _ _
      refine ⟨hSsub.trans ih1, ?_, ?_, ?_, ?_, ?_, ?_⟩
      · have ih2' := ih2
        rw [Finset.card_insert_of_not_mem hc.1] at ih2'
        simp only [List.length_append, List.length_singleton] at ih2'
        omega
      · intro hrange
        apply ih3
        apply Finset.insert_subset_iff.mpr
        exact ⟨Finset.mem_range.mpr (hwf _ (getDef_mem _ _ _ hridlen)),
          hrange⟩
      · intro T hT hST
        apply ih4 T hT
        apply Finset.insert_subset_iff.mpr
        refine ⟨?_, hST⟩
        apply hT
        refine ⟨getDef default rules rid, getDef_mem _ _ _ hridlen, rfl, ?_⟩
        intro el hel
        obtain ⟨B, h1, h2⟩ := (allNullable_iff _ _).mp hc.2 el hel
        exact ⟨B, h1, hST h2⟩
      · intro x hx
        rcases ih5 x hx with hx' | hx'
        · rcases Finset.mem_insert.mp hx' with rfl | hx''
          · exact Or.inr (ih6 _ (List.mem_append_right _
              (List.mem_singleton.mpr rfl)))
          · exact Or.inl hx''
        · exact Or.inr hx'
      · intro x hx
        exact ih6 x (List.mem_append_left _ hx)
      · intro i hi hall
        rcases List.mem_cons.mp hi with rfl | hi'
        · exact ih1 (Finset.mem_insert_self _ _)
        · exact ih7 i hi' (allNullable_mono hSsub _ hall)
    · rw [if_neg hc]
      obtain ⟨ih1, ih2, ih3, ih4, ih5, ih6, ih7⟩ := ih S acc hrvalid
      refine ⟨ih1, ih2, ih3, ih4, ih5, ih6, ?_⟩
      intro i hi hall
      rcases List.mem_cons.mp hi with rfl | hi'
      · rcases Decidable.em ((getDef default rules i).id ∈ S) with hin | hout
        · exact ih1 hin
        · exact absurd ⟨hout, hall⟩ hc
      · exact ih7 i hi' hall

/-- Specification of the `is_in` update over one rule's elements. -/
theorem isInFold_spec (i : Nat) :
    ∀ (elems : List RuleElement) (m : List (List Nat)),
      (elems.foldl (isInStep i) m).length = m.length ∧
      (∀ B x, x ∈ getDef [] m B → x ∈ getDef [] (elems.foldl (isInStep i) m) B) ∧
      (∀ B x, x ∈ getDef [] (elems.foldl (isInStep i) m) B →
        x ∈ getDef [] m B ∨ x = i) ∧
      (∀ B, B < m.length → (∃ el ∈ elems, el.elementType = .nonTerminal B) →
        i ∈ getDef [] (elems.foldl (isInStep i) m) B) := by
  intro elems
  induction elems with
  | nil =>
    intro m
    refine ⟨rfl, fun _ _ hx => hx, fun _ _ hx => Or.inl hx, ?_⟩
    intro B _ hocc
    obtain ⟨el, hel, -⟩ := hocc
    exact absurd hel (by simp)
  | cons el rest ih =>
    intro m
    rw [List.foldl_cons]
    have hstep : (isInStep i m el).length = m.length ∧
        (∀ B x, x ∈ getDef [] m B → x ∈ getDef [] (isInStep i m el) B) ∧
        (∀ B x, x ∈ getDef [] (isInStep i m el) B →
          x ∈ getDef [] m B ∨ x = i) ∧
        (∀ B, B < m.length → el.elementType = .nonTerminal B →
          i ∈ getDef [] (isInStep i m el) B) := by
      cases hety : el.elementType with
      | terminal t =>
        have hred : isInStep i m el = m := by
          unfold isInStep
          rw [hety]
        rw [hred]
        refine ⟨rfl, fun _ _ hx => hx, fun _ _ hx => Or.inl hx, ?_⟩
        intro B _ hBeq
        exact absurd hBeq (by simp)
      | nonTerminal rhs =>
        have hred : isInStep i m el = listModify (fun l => l ++ [i]) rhs m := by
          unfold isInStep
          rw [hety]
        rw [hred]
        refine ⟨listModify_length _ _ _, ?_, ?_, ?_⟩
        · intro B x hx
          by_cases hBr : B = rhs
          · subst hBr
            by_cases hb : B < m.length
            · rw [getDef_listModify_self _ _ _ _ hb]
              exact List.mem_append_left _ hx
            · rw [listModify_oob _ _ _ (by omega)]
              exact hx
          · rw [getDef_listModify_other _ _ _ _ _ hBr]
            exact hx
        · intro B x hx
          by_cases hBr : B = rhs
          · subst hBr
            by_cases hb : B < m.length
            · rw [getDef_listModify_self _ _ _ _ hb] at hx
              rcases List.mem_append.mp hx with hx' | hx'
              · exact Or.inl hx'
              · exact Or.inr (List.mem_singleton.mp hx')
            · rw [listModify_oob _ _ _ (by omega)] at hx
              exact Or.inl hx
          · rw [getDef_listModify_other _ _ _ _ _ hBr] at hx
            exact Or.inl hx
        · intro B hb hBeq
          have hrB : rhs = B := ElementType.nonTerminal.inj hBeq
          subst hrB
          rw [getDef_listModify_self _ _ _ _ hb]
          exact List.mem_append_right _ (List.mem_singleton.mpr rfl)
    obtain ⟨hs1, hs2, hs3, hs4⟩ := hstep
    obtain ⟨ih1, ih2, ih3, ih4⟩ := ih (isInStep i m el)
    refine ⟨by rw [ih1, hs1], fun B x hx => ih2 B x (hs2 B x hx), ?_, ?_⟩
    · intro B x hx
      rcases ih3 B x hx with hx' | hx'
      · exact hs3 B x hx'
      · exact Or.inr hx'
    · intro B hb hocc
      obtain ⟨el', hel', hty⟩ := hocc
      rcases List.mem_cons.mp hel' with rfl | hel''
      · exact ih2 B i (hs4 B hb hty)
      · exact ih4 B (by rw [hs1]; exact hb) ⟨el', hel'', hty⟩

/-- Specification of the initialization pass: the `is_in` table keeps its
length, records rule `i + j` under every non-terminal occurring on the
right-hand side of the `j`-th remaining rule (and nothing but such rule
indices), and the initial nullables/queue pair collects exactly the
left-hand sides of empty rules, with the queue mirroring the set. -/
theorem grammarInitAux_spec :
    ∀ (rs : List Rule) (i : Nat) (rulesOf isIn : List (List Nat))
      (nulls : Finset Nat) (queue : List Nat),
      (∀ A, A ∈ queue ↔ A ∈ nulls) →
      ((grammarInitAux rs i rulesOf isIn nulls queue).2.1.length =
        isIn.length) ∧
      (∀ B x, x ∈ getDef [] isIn B →
        x ∈ getDef [] (grammarInitAux rs i rulesOf isIn nulls queue).2.1 B) ∧
      (∀ B x,
        x ∈ getDef [] (grammarInitAux rs i rulesOf isIn nulls queue).2.1 B →
        x ∈ getDef [] isIn B ∨ ∃ j, j < rs.length ∧ x = i + j) ∧
      (∀ j B, j < rs.length →
        (∃ el ∈ (getDef default rs j).elements,
          el.elementType = .nonTerminal B) →
        B < isIn.length →
        (i + j) ∈
          getDef [] (grammarInitAux rs i rulesOf isIn nulls queue).2.1 B) ∧
      (∀ A, A ∈ (grammarInitAux rs i rulesOf isIn nulls queue).2.2.2 ↔
        A ∈ (grammarInitAux rs i rulesOf isIn nulls queue).2.2.1) ∧
      (∀ A, A ∈ (grammarInitAux rs i rulesOf isIn nulls queue).2.2.1 ↔
        A ∈ nulls ∨ ∃ j, j < rs.length ∧ (getDef default rs j).id = A ∧
          (getDef default rs j).elements = []) := by
  intro rs
  induction rs with
  | nil =>
    intro i rulesOf isIn nulls queue hqn
    rw [grammarInitAux]
    refine ⟨rfl, fun _ _ hx => hx, fun _ _ hx => Or.inl hx, ?_, hqn, ?_⟩
    · intro j B hj
      exact absurd hj (by simp)
    · intro A
      simp
  | cons rule rest ih =>
    intro i rulesOf isIn nulls queue hqn
    obtain ⟨f1, f2, f3, f4⟩ := isInFold_spec i rule.elements isIn
    by_cases hE : rule.elements.isEmpty
    · have hunf : grammarInitAux (rule :: rest) i rulesOf isIn nulls queue =
          grammarInitAux rest (i + 1)
            (listModify (fun l => l ++ [i]) rule.id rulesOf)
            (rule.elements.foldl (isInStep i) isIn)
            (insert rule.id nulls) (queue ++ [rule.id]) := by
        rw [grammarInitAux, if_pos hE]
      have hqn1 : ∀ A, A ∈ queue ++ [rule.id] ↔ A ∈ insert rule.id nulls := by
        intro A
        rw [List.mem_append, List.mem_singleton, Finset.mem_insert, hqn A]
        tauto
      obtain ⟨ih1, ih2, ih3, ih4, ih5, ih6⟩ := ih (i + 1)
        (listModify (fun l => l ++ [i]) rule.id rulesOf)
        (rule.elements.foldl (isInStep i) isIn)
        (insert rule.id nulls) (queue ++ [rule.id]) hqn1
      rw [hunf]
      have hempty : rule.elements = [] := List.isEmpty_iff.mp hE
      refine ⟨by rw [ih1, f1], fun B x hx => ih2 B x (f2 B x hx), ?_, ?_, ih5, ?_⟩
      · intro B x hx
        rcases ih3 B x hx with hx' | ⟨j, hj, rfl⟩
        · rcases f3 B x hx' with hx'' | rfl
          · exact Or.inl hx''
          · exact Or.inr ⟨0, by simp, by omega⟩
        · exact Or.inr ⟨j + 1, by simpa using hj, by omega⟩
      · intro j B hj hocc hb
        cases j with
        | zero =>
          obtain ⟨el, hel, -⟩ := hocc
          rw [show getDef default (rule :: rest) 0 = rule from rfl, hempty]
            at hel
          exact absurd hel (by simp)
        | succ j' =>
          have := ih4 j' B (by simpa using hj)
            (by exact hocc) (by rw [f1]; exact hb)
          rw [show i + 1 + j' = i + (j' + 1) from by omega] at this
          exact this
      · intro A
        rw [ih6 A, Finset.mem_insert]
        constructor
        · rintro ((rfl | hA) | ⟨j, hj, hid, hemp⟩)
          · exact Or.inr ⟨0, by simp, rfl, hempty⟩
          · exact Or.inl hA
          · exact Or.inr ⟨j + 1, by simpa using hj, hid, hemp⟩
        · rintro (hA | ⟨j, hj, hid, hemp⟩)
          · exact Or.inl (Or.inr hA)
          · cases j with
            | zero => exact Or.inl (Or.inl hid.symm)
            | succ j' => exact Or.inr ⟨j', by simpa using hj, hid, hemp⟩
    · have hunf : grammarInitAux (rule :: rest) i rulesOf isIn nulls queue =
          grammarInitAux rest (i + 1)
            (listModify (fun l => l ++ [i]) rule.id rulesOf)
            (rule.elements.foldl (isInStep i) isIn) nulls queue := by
        rw [grammarInitAux, if_neg hE]
      obtain ⟨ih1, ih2, ih3, ih4, ih5, ih6⟩ := ih (i + 1)
        (listModify (fun l => l ++ [i]) rule.id rulesOf)
        (rule.elements.foldl (isInStep i) isIn) nulls queue hqn
      rw [hunf]
      have hnonempty : rule.elements ≠ [] := by
        intro hc
        exact hE (List.isEmpty_iff.mpr hc)
      refine ⟨by rw [ih1, f1], fun B x hx => ih2 B x (f2 B x hx), ?_, ?_, ih5, ?_⟩
      · intro B x hx
        rcases ih3 B x hx with hx' | ⟨j, hj, rfl⟩
        · rcases f3 B x hx' with hx'' | rfl
          · exact Or.inl hx''
          · exact Or.inr ⟨0, by simp, by omega⟩
        · exact Or.inr ⟨j + 1, by simpa using hj, by omega⟩
      · intro j B hj hocc hb
        cases j with
        | zero =>
          have hocc' : ∃ el ∈ rule.elements, el.elementType = .nonTerminal B :=
            hocc
          have := ih2 B i (f4 B hb hocc')
          simpa using this
        | succ j' =>
          have := ih4 j' B (by simpa using hj)
            (by exact hocc) (by rw [f1]; exact hb)
          rw [show i + 1 + j' = i + (j' + 1) from by omega] at this
          exact this
      · intro A
        rw [ih6 A]
        constructor
        · rintro (hA | ⟨j, hj, hid, hemp⟩)
          · exact Or.inl hA
          · exact Or.inr ⟨j + 1, by simpa using hj, hid, hemp⟩
        · rintro (hA | ⟨j, hj, hid, hemp⟩)
          · exact Or.inl hA
          · cases j with
            | zero => exact absurd hemp hnonempty
            | succ j' => exact Or.inr ⟨j', by simpa using hj, hid, hemp⟩

/-- Master induction over the worklist: with enough fuel (the measure
`|W| + (nbNT+1)·(nbNT − |S|)` strictly decreases each round), starting
from a sound state whose unprocessed obligations all sit in the queue, the
loop ends in a set that is contained in every closed set and is itself
closed under the nullability rule. -/
theorem nullLoop_spec (rules : List Rule) (isIn : List (List Nat))
    (nbNT : Nat)
    (hwf : ∀ r ∈ rules, r.id < nbNT)
    (hisIn_complete : ∀ i B, i < rules.length → ntOccursAt rules i B →
      B < nbNT → i ∈ getDef [] isIn B)
    (hisIn_valid : ∀ B x, x ∈ getDef [] isIn B → x < rules.length)
    (hwf2 : ∀ r ∈ rules, ∀ el ∈ r.elements, ∀ B,
      el.elementType = .nonTerminal B → B < nbNT) :
    ∀ (fuel : Nat) (S : Finset Nat) (W : List Nat),
      W.length + (nbNT + 1) * (nbNT - S.card) < fuel →
      S ⊆ Finset.range nbNT →
      (∀ T, NullClosed rules T → S ⊆ T) →
      (∀ i, i < rules.length →
        allNullable S (getDef default rules i).elements = true →
        (getDef default rules i).id ∈ S ∨ ∃ B ∈ W, ntOccursAt rules i B) →
      (∀ T, NullClosed rules T → nullLoop rules isIn fuel S W ⊆ T) ∧
      (∀ i, i < rules.length →
        allNullable (nullLoop rules isIn fuel S W)
          (getDef default rules i).elements = true →
        (getDef default rules i).id ∈ nullLoop rules isIn fuel S W) ∧
      S ⊆ nullLoop rules isIn fuel S W := by
  intro fuel
  induction fuel with
  | zero =>
    intro S W hM
    exact absurd hM (by omega)
  | succ fuel ihf =>
    intro S W hM hrange hsound hI3
    cases W with
    | nil =>
      rw [show nullLoop rules isIn (fuel + 1) S [] = S from rfl]
      refine ⟨hsound, ?_, Finset.Subset.refl S⟩
      intro i hilen hall
      rcases hI3 i hilen hall with hin | ⟨B, hBW, _⟩
      · exact hin
      · exact absurd hBW (by simp)
    | cons current rest =>
      have hvalid : ∀ x ∈ getDef [] isIn current, x < rules.length :=
        fun x hx => hisIn_valid current x hx
      obtain ⟨pr1, pr2, pr3, pr4, pr5, pr6, pr7⟩ :=
        processRules_spec rules nbNT hwf (getDef [] isIn current) S [] hvalid
      set P := processRules rules (getDef [] isIn current) S [] with hP
      have hunf : nullLoop rules isIn (fuel + 1) S (current :: rest) =
          nullLoop rules isIn fuel P.1 (rest ++ P.2) := rfl
      rw [hunf]
      have hcard : P.1.card = S.card + P.2.length := by simpa using pr2
      have hrange' : P.1 ⊆ Finset.range nbNT := pr3 hrange
      have hcardle : S.card + P.2.length ≤ nbNT := by
        have h1 := Finset.card_le_card hrange'
        rw [Finset.card_range, hcard] at h1
        exact h1
      have key : P.2.length +
          (nbNT + 1) * (nbNT - (S.card + P.2.length)) ≤
          (nbNT + 1) * (nbNT - S.card) := by
        have e1 : nbNT - S.card =
            (nbNT - (S.card + P.2.length)) + P.2.length := by omega
        calc P.2.length + (nbNT + 1) * (nbNT - (S.card + P.2.length))
            ≤ (nbNT + 1) * P.2.length +
              (nbNT + 1) * (nbNT - (S.card + P.2.length)) :=
              Nat.add_le_add_right
                (Nat.le_mul_of_pos_left _ (Nat.succ_pos nbNT)) _
          _ = (nbNT + 1) * ((nbNT - (S.card + P.2.length)) + P.2.length) := by
              rw [Nat.mul_add, Nat.add_comm]
          _ = (nbNT + 1) * (nbNT - S.card) := by rw [← e1]
      have hM' : (rest ++ P.2).length +
          (nbNT + 1) * (nbNT - P.1.card) < fuel := by
        rw [List.length_append, hcard]
        have hMlin := hM
        simp only [List.length_cons] at hMlin
        revert key hMlin
        generalize (nbNT + 1) * (nbNT - (S.card + P.2.length)) = b
        generalize (nbNT + 1) * (nbNT - S.card) = a
        intro key hMlin
        omega
      have hI3' : ∀ i, i < rules.length →
          allNullable P.1 (getDef default rules i).elements = true →
          (getDef default rules i).id ∈ P.1 ∨
            ∃ B ∈ rest ++ P.2, ntOccursAt rules i B := by
        intro i hilen hall'
        by_cases hallS : allNullable S (getDef default rules i).elements = true
        · rcases hI3 i hilen hallS with hin | ⟨B, hBW, hocc⟩
          · exact Or.inl (pr1 hin)
          · rcases List.mem_cons.mp hBW with rfl | hBrest
            · have hBlt : B < nbNT := by
                obtain ⟨el, hel, hty⟩ := hocc
                exact hwf2 _ (getDef_mem default rules i hilen) el hel B hty
              exact Or.inl (pr7 i (hisIn_complete i B hilen hocc hBlt) hallS)
            · exact Or.inr ⟨B, List.mem_append_left _ hBrest, hocc⟩
        · obtain ⟨el, hel, B, hty, hBnS, hBP1⟩ :=
            allNullable_new_witness _ hallS hall'
          rcases pr5 B hBP1 with hBS | hBP2
          · exact absurd hBS hBnS
          · exact Or.inr ⟨B, List.mem_append_right _ hBP2, el, hel, hty⟩
      obtain ⟨c1, c2, c3⟩ := ihf P.1 (rest ++ P.2) hM' hrange'
        (fun T hT => pr4 T hT (hsound T hT)) hI3'
      exact ⟨c1, c2, pr1.trans c3⟩

theorem getDef_replicate_nil {γ : Type _} :
    ∀ (n B : Nat), getDef ([] : List γ) (List.replicate n ([] : List γ)) B = [] := by
  intro n
  induction n with
  | zero => intro B; cases B <;> rfl
  | succ n' ih =>
    intro B
    cases B with
    | zero => rfl
    | succ B' => exact ih B'

theorem getDef_of_mem {α : Type _} (d : α) {a : α} :
    ∀ {l : List α}, a ∈ l → ∃ i, i < l.length ∧ getDef d l i = a := by
  intro l
  induction l with
  | nil =>
    intro h
    exact absurd h (by simp)
  | cons b bs ih =>
    intro h
    rcases List.mem_cons.mp h with rfl | h'
    · exact ⟨0, by simp, rfl⟩
    · obtain ⟨i, hi, hgd⟩ := ih h'
      exact ⟨i + 1, by simpa using hi, hgd⟩

theorem NullJustified_mono {rules : List Rule} {S S' : Finset Nat}
    (hss : S ⊆ S') {A : Nat} (h : NullJustified rules S A) :
    NullJustified rules S' A := by
  obtain ⟨r, hr, hid, hels⟩ := h
  refine ⟨r, hr, hid, ?_⟩
  intro el hel
  obtain ⟨B, h1, h2⟩ := hels el hel
  exact ⟨B, h1, hss h2⟩

/-- Claim C5: for every grammar built by `EarleyGrammar::new` (under the
in-bounds side conditions the source's bit sets assume), the computed
nullables set is the least fixed point of the closure rule: a non-terminal
is nullable iff some of its rules has every right-hand-side element a
nullable non-terminal (empty right-hand sides qualify vacuously, terminals
never do), and the set is contained in every closed set. -/
theorem grammar_nullables_least_fixed_point
    (rules : List Rule) (axioms : Finset Nat) (nbNT : Nat)
    (idOf : List (String × Nat)) (nameOf : List String)
    (hwf : ∀ r ∈ rules, r.id < nbNT)
    (hwf2 : ∀ r ∈ rules, ∀ el ∈ r.elements, ∀ B,
      el.elementType = .nonTerminal B → B < nbNT) :
    (∀ A, A ∈ (EarleyGrammar.new rules axioms nbNT idOf nameOf).nullables ↔
      NullJustified rules
        (EarleyGrammar.new rules axioms nbNT idOf nameOf).nullables A) ∧
    (∀ T, NullClosed rules T →
      (EarleyGrammar.new rules axioms nbNT idOf nameOf).nullables ⊆ T) := by
  classical
  obtain ⟨g1, g2, g3, g4, g5, g6⟩ := grammarInitAux_spec rules 0
    (List.replicate nbNT []) (List.replicate nbNT []) ∅ [] (by simp)
  set init := grammarInitAux rules 0 (List.replicate nbNT [])
    (List.replicate nbNT []) ∅ [] with hinit
  have hisIn_valid : ∀ B x, x ∈ getDef [] init.2.1 B → x < rules.length := by
    intro B x hx
    rcases g3 B x hx with hx' | ⟨j, hj, rfl⟩
    · rw [getDef_replicate_nil] at hx'
      exact absurd hx' (by simp)
    · omega
  have hisIn_complete : ∀ i B, i < rules.length → ntOccursAt rules i B →
      B < nbNT → i ∈ getDef [] init.2.1 B := by
    intro i B hilen hocc hB
    have := g4 i B hilen hocc (by rw [List.length_replicate]; exact hB)
    simpa using this
  have hS0range : init.2.2.1 ⊆ Finset.range nbNT := by
    intro A hA
    rcases (g6 A).mp hA with hF | ⟨j, hj, hid, -⟩
    · exact absurd hF (by simp)
    · rw [← hid]
      exact Finset.mem_range.mpr (hwf _ (getDef_mem default rules j hj))
  have hS0sound : ∀ T, NullClosed rules T → init.2.2.1 ⊆ T := by
    intro T hT A hA
    rcases (g6 A).mp hA with hF | ⟨j, hj, hid, hemp⟩
    · exact absurd hF (by simp)
    · apply hT
      refine ⟨getDef default rules j, getDef_mem default rules j hj, hid, ?_⟩
      rw [hemp]
      intro el hel
      exact absurd hel (by simp)
  have hI30 : ∀ i, i < rules.length →
      allNullable init.2.2.1 (getDef default rules i).elements = true →
      (getDef default rules i).id ∈ init.2.2.1 ∨
        ∃ B ∈ init.2.2.2, ntOccursAt rules i B := by
    intro i hilen hall
    cases hels : (getDef default rules i).elements with
    | nil =>
      left
      exact (g6 _).mpr (Or.inr ⟨i, hilen, rfl, hels⟩)
    | cons el els =>
      right
      rw [hels] at hall
      obtain ⟨B, hty, hBS⟩ := (allNullable_iff _ _).mp hall el
        (List.mem_cons_self _ _)
      exact ⟨B, (g5 B).mpr hBS, el, by rw [hels]; exact List.mem_cons_self _ _,
        hty⟩
  have hM0 : init.2.2.2.length +
      (nbNT + 1) * (nbNT - init.2.2.1.card) <
      init.2.2.2.length + (nbNT + 1) * (nbNT + 1) := by
    apply Nat.add_lt_add_left
    exact mul_lt_mul_of_pos_left (by omega) (Nat.succ_pos nbNT)
  obtain ⟨c1, c2, c3⟩ := nullLoop_spec rules init.2.1 nbNT hwf
    hisIn_complete hisIn_valid hwf2
    (init.2.2.2.length + (nbNT + 1) * (nbNT + 1))
    init.2.2.1 init.2.2.2 hM0 hS0range hS0sound hI30
  set R := nullLoop rules init.2.1
    (init.2.2.2.length + (nbNT + 1) * (nbNT + 1)) init.2.2.1 init.2.2.2
    with hR
  have hnewR : (EarleyGrammar.new rules axioms nbNT idOf nameOf).nullables =
      R := rfl
  rw [hnewR]
  have hclosedR : NullClosed rules R := by
    intro A hjust
    obtain ⟨r, hr, hid, hels⟩ := hjust
    obtain ⟨i, hilen, hgd⟩ := getDef_of_mem default hr
    have hall : allNullable R (getDef default rules i).elements = true := by
      rw [allNullable_iff, hgd]
      exact hels
    have := c2 i hilen hall
    rw [hgd, hid] at this
    exact this
  refine ⟨?_, c1⟩
  intro A
  constructor
  · intro hA
    set T := R.filter (fun A => NullJustified rules R A) with hT
    have hTclosed : NullClosed rules T := by
      intro A' hjust
      have hjustR : NullJustified rules R A' :=
        NullJustified_mono (Finset.filter_subset _ _) hjust
      exact Finset.mem_filter.mpr ⟨hclosedR A' hjustR, hjustR⟩
    exact (Finset.mem_filter.mp (c1 T hTclosed hA)).2
  · exact hclosedR A

/-- Witness for C5 on the nullable grammar `@A ::= | B ; B ::= A ;`: both
non-terminals come out nullable, and the computed set is a least fixed
point. -/
theorem grammar_nullables_least_fixed_point_witness :
    (0 ∈ gNull.nullables ∧ 1 ∈ gNull.nullables) ∧
    ((∀ A, A ∈ gNull.nullables ↔ NullJustified rulesNull gNull.nullables A) ∧
     (∀ T, NullClosed rulesNull T → gNull.nullables ⊆ T)) :=
  ⟨⟨by decide, by decide⟩,
   grammar_nullables_least_fixed_point rulesNull {0} 2 [] ["A", "B"]
     (by decide)
     (by
       intro r hr el hel B hty
       fin_cases hr <;> simp_all [rulesNull] <;> omega)⟩

/-! ## Claim C2: the find_children comparator -/

theorem natCompare_swap (a b : Nat) : compare a b = (compare b a).swap := by
  rcases Nat.lt_trichotomy a b with h | h | h
  · rw [compare_lt_iff_lt.mpr h, compare_gt_iff_gt.mpr h]
    rfl
  · subst h
    rw [show compare a a = Ordering.eq from compare_eq_iff_eq.mpr rfl]
    rfl
  · rw [compare_gt_iff_gt.mpr h, compare_lt_iff_lt.mpr h]
    rfl

/-- The comparator of `find_children` is antisymmetric: swapping the
arguments swaps the ordering. -/
theorem seqCmp_flip (la : Bool) :
    ∀ (a b : List SyntaxicItem), seqCmp la a b = (seqCmp la b a).swap := by
  intro a
  induction a with
  | nil =>
    intro b
    cases b <;> rfl
  | cons x xs ih =>
    intro b
    cases b with
    | nil => rfl
    | cons y ys =>
      simp only [seqCmp]
      cases hx : x.kind <;> cases hy : y.kind
      case rule.rule xr yr =>
        cases la
        · cases hc : compare y.start x.start with
          | lt =>
            rw [show compare x.start y.start = Ordering.gt from by
              rw [natCompare_swap, hc]; rfl]
            rfl
          | eq =>
            rw [show compare x.start y.start = Ordering.eq from by
              rw [natCompare_swap, hc]; rfl]
            dsimp only
            cases hr : compare xr yr with
            | lt =>
              rw [show compare yr xr = Ordering.gt from by
                rw [natCompare_swap, hr]; rfl]
              rfl
            | eq =>
              rw [show compare yr xr = Ordering.eq from by
                rw [natCompare_swap, hr]; rfl]
              exact ih ys
            | gt =>
              rw [show compare yr xr = Ordering.lt from by
                rw [natCompare_swap, hr]; rfl]
              rfl
          | gt =>
            rw [show compare x.start y.start = Ordering.lt from by
              rw [natCompare_swap, hc]; rfl]
            rfl
        · cases hc : compare x.start y.start with
          | lt =>
            rw [show compare y.start x.start = Ordering.gt from by
              rw [natCompare_swap, hc]; rfl]
            rfl
          | eq =>
            rw [show compare y.start x.start = Ordering.eq from by
              rw [natCompare_swap, hc]; rfl]
            dsimp only
            cases hr : compare xr yr with
            | lt =>
              rw [show compare yr xr = Ordering.gt from by
                rw [natCompare_swap, hr]; rfl]
              rfl
            | eq =>
              rw [show compare yr xr = Ordering.eq from by
                rw [natCompare_swap, hr]; rfl]
              exact ih ys
            | gt =>
              rw [show compare yr xr = Ordering.lt from by
                rw [natCompare_swap, hr]; rfl]
              rfl
          | gt =>
            rw [show compare y.start x.start = Ordering.lt from by
              rw [natCompare_swap, hc]; rfl]
            rfl
      case rule.token t =>
        exact ih ys
      case token.rule t =>
        exact ih ys
      case token.token t1 t2 =>
        exact ih ys

theorem cmp_self_eq_of_flip {α : Type _} {cmp : α → α → Ordering}
    (hflip : ∀ a b, cmp a b = (cmp b a).swap) (a : α) : cmp a a = .eq := by
  have h := hflip a a
  cases hc : cmp a a <;> rw [hc] at h
  case lt => exact absurd h (by decide)
  case gt => exact absurd h (by decide)

/-- Invariant of the `max_by` fold: the accumulator is drawn from the
processed elements and never compares strictly below any of them. -/
theorem maxByRust_fold_spec {α : Type _} (cmp : α → α → Ordering)
    (L : List α)
    (hflip : ∀ a b, cmp a b = (cmp b a).swap)
    (htrans : ∀ a b c, a ∈ L → b ∈ L → c ∈ L →
      cmp a b ≠ .lt → cmp b c ≠ .lt → cmp a c ≠ .lt) :
    ∀ (xs : List α) (a : α) (prev : List α),
      a ∈ L → (∀ x ∈ xs, x ∈ L) → (∀ y ∈ prev, y ∈ L) →
      (∀ y ∈ prev, cmp a y ≠ .lt) →
      ∃ m, xs.foldl (maxStep cmp) (some a) = some m ∧ m ∈ L ∧
        (m = a ∨ m ∈ xs) ∧ (∀ y ∈ prev ++ xs, cmp m y ≠ .lt) := by
  intro xs
  induction xs with
  | nil =>
    intro a prev haL _ _ hmax
    exact ⟨a, rfl, haL, Or.inl rfl, by simpa using hmax⟩
  | cons x rest ih =>
    intro a prev haL hxsL hprevL hmax
    rw [List.foldl_cons]
    have hxL : x ∈ L := hxsL x (List.mem_cons_self _ _)
    have hrestL : ∀ z ∈ rest, z ∈ L :=
      fun z hz => hxsL z (List.mem_cons_of_mem _ hz)
    have hprevL' : ∀ y ∈ prev ++ [x], y ∈ L := by
      intro y hy
      rcases List.mem_append.mp hy with hy' | hy'
      · exact hprevL y hy'
      · rw [List.mem_singleton.mp hy']
        exact hxL
    by_cases hc : cmp a x = .gt
    · rw [show maxStep cmp (some a) x = some a from by
        show (if cmp a x = .gt then some a else some x) = some a
        rw [if_pos hc]]
      have hmax' : ∀ y ∈ prev ++ [x], cmp a y ≠ .lt := by
        intro y hy
        rcases List.mem_append.mp hy with hy' | hy'
        · exact hmax y hy'
        · rw [List.mem_singleton.mp hy', hc]
          exact (by decide)
      obtain ⟨m, h1, h2, h3, h4⟩ := ih a (prev ++ [x]) haL hrestL hprevL' hmax'
      refine ⟨m, h1, h2, ?_, ?_⟩
      · rcases h3 with rfl | h3'
        · exact Or.inl rfl
        · exact Or.inr (List.mem_cons_of_mem _ h3')
      · intro y hy
        apply h4
        rcases List.mem_append.mp hy with hy' | hy'
        · exact List.mem_append_left _ (List.mem_append_left _ hy')
        · rcases List.mem_cons.mp hy' with rfl | hy''
          · exact List.mem_append_left _ (List.mem_append_right _
              (List.mem_singleton.mpr rfl))
          · exact List.mem_append_right _ hy''
    · rw [show maxStep cmp (some a) x = some x from by
        show (if cmp a x = .gt then some a else some x) = some x
        rw [if_neg hc]]
      have hxa : cmp x a ≠ .lt := by
        rw [hflip x a]
        intro hcon
        apply hc
        cases hval : cmp a x <;> rw [hval] at hcon
        case lt => exact absurd hcon (by decide)
        case eq => exact absurd hcon (by decide)
      have hmax' : ∀ y ∈ prev ++ [x], cmp x y ≠ .lt := by
        intro y hy
        rcases List.mem_append.mp hy with hy' | hy'
        · exact htrans x a y hxL haL (hprevL y hy') hxa (hmax y hy')
        · rw [List.mem_singleton.mp hy', cmp_self_eq_of_flip hflip x]
          exact (by decide)
      obtain ⟨m, h1, h2, h3, h4⟩ := ih x (prev ++ [x]) hxL hrestL hprevL' hmax'
      refine ⟨m, h1, h2, ?_, ?_⟩
      · rcases h3 with rfl | h3'
        · exact Or.inr (List.mem_cons_self _ _)
        · exact Or.inr (List.mem_cons_of_mem _ h3')
      · intro y hy
        apply h4
        rcases List.mem_append.mp hy with hy' | hy'
        · exact List.mem_append_left _ (List.mem_append_left _ hy')
        · rcases List.mem_cons.mp hy' with rfl | hy''
          · exact List.mem_append_left _ (List.mem_append_right _
              (List.mem_singleton.mpr rfl))
          · exact List.mem_append_right _ hy''

/-- Specification of Rust's `max_by` under an antisymmetric comparator
that is transitive on the list: the result is an element of the list that
no element strictly exceeds. -/
theorem maxByRust_spec {α : Type _} (cmp : α → α → Ordering) (l : List α)
    (hflip : ∀ a b, cmp a b = (cmp b a).swap)
    (hne : l ≠ [])
    (htrans : ∀ a b c, a ∈ l → b ∈ l → c ∈ l →
      cmp a b ≠ .lt → cmp b c ≠ .lt → cmp a c ≠ .lt) :
    ∃ m, maxByRust cmp l = some m ∧ m ∈ l ∧ ∀ y ∈ l, cmp m y ≠ .lt := by
  cases l with
  | nil => exact absurd rfl hne
  | cons x xs =>
    unfold maxByRust
    rw [List.foldl_cons, show maxStep cmp none x = some x from rfl]
    obtain ⟨m, h1, h2, h3, h4⟩ := maxByRust_fold_spec cmp (x :: xs) hflip
      htrans xs x [x] (List.mem_cons_self _ _)
      (fun z hz => List.mem_cons_of_mem _ hz)
      (fun y hy => by rw [List.mem_singleton.mp hy]; exact List.mem_cons_self _ _)
      (fun y hy => by
        rw [List.mem_singleton.mp hy, cmp_self_eq_of_flip hflip x]
        exact (by decide))
    refine ⟨m, h1, h2, ?_⟩
    intro y hy
    apply h4
    rcases List.mem_cons.mp hy with rfl | hy'
    · exact List.mem_append_left _ (List.mem_singleton.mpr rfl)
    · exact List.mem_append_right _ hy'

/-- Claim C2 as amended: when a rule expansion admits several complete
child-boundary sequences, `find_children` returns the maximum under the
comparator that examines the non-terminal child pairs in REVERSE sequence
order (the candidate sequences are stored last-child-first and the
comparator walks them from the head): for each pair `(L, R)`,
`assoc = L.start.cmp(R.start)` if the rule is left-associative, else
`R.start.cmp(L.start)`; a non-equal `assoc` decides, otherwise the child
rule ids are compared; terminal children compare equal.  The transitivity
hypothesis holds whenever the candidate sequences align in shape, as the
sequences produced by one expansion do. -/
theorem findChildren_reverse_order_max (g : EarleyGrammar)
    (element : SyntaxicItem) (rid : Nat) (forest : List FinalSet)
    (raw : List Token) (hkind : element.kind = .rule rid)
    (hne : completeSequences g rid element forest raw ≠ [])
    (htrans : ∀ a b c, a ∈ completeSequences g rid element forest raw →
      b ∈ completeSequences g rid element forest raw →
      c ∈ completeSequences g rid element forest raw →
      seqCmp (getDef default g.rules rid).leftAssociative a b ≠ .lt →
      seqCmp (getDef default g.rules rid).leftAssociative b c ≠ .lt →
      seqCmp (getDef default g.rules rid).leftAssociative a c ≠ .lt) :
    ∃ chosen ∈ completeSequences g rid element forest raw,
      findChildren g element forest raw = some chosen.reverse ∧
      ∀ other ∈ completeSequences g rid element forest raw,
        seqCmp (getDef default g.rules rid).leftAssociative chosen other ≠
          .lt := by
  obtain ⟨m, hm, hmem, hmax⟩ := maxByRust_spec
    (seqCmp (getDef default g.rules rid).leftAssociative)
    (completeSequences g rid element forest raw)
    (seqCmp_flip _) hne htrans
  refine ⟨m, hmem, ?_, hmax⟩
  unfold findChildren
  rw [hkind]
  dsimp only
  rw [hm]
  rfl

/-- Rule of the C2 example: `A → B B`, left-associative. -/
def rulesC2 : List Rule :=
  [⟨0, [⟨Attr.none, Option.none, .nonTerminal 1⟩,
        ⟨Attr.none, Option.none, .nonTerminal 1⟩], .nil, true⟩]

/-- Grammar over `rulesC2`. -/
def gC2 : EarleyGrammar := EarleyGrammar.new rulesC2 {0} 2 [] ["A", "B"]

/-- Forest of the C2 example: `B` completions covering `[0,1)`, `[0,2)`,
`[1,3)` and `[2,3)`, so that `A → B B` over `[0,3)` splits either at 1 or
at 2. -/
def forestC2 : List FinalSet :=
  [⟨[(1, [0, 1])], [⟨5, 1⟩, ⟨1, 2⟩], 0⟩,
   ⟨[(1, [0])], [⟨7, 3⟩], 1⟩,
   ⟨[(1, [0])], [⟨9, 3⟩], 2⟩]

/-- Counterexample to claim C2 as stated: over `forestC2` the expansion of
`A → B B` on `[0,3)` admits the two complete sequences
`S1 = [B(rule 5)[0,1), B(rule 7)[1,3)]` and
`S2 = [B(rule 1)[0,2), B(rule 9)[2,3)]` (stored reversed).  Under the
claimed comparison "pairwise in sequence order" the first pair decides:
equal starts, then rule ids `5 > 1`, so `S1` would be the maximum.  The
code compares last pair first (starts `1 < 2`), so it returns `S2`. -/
theorem findChildren_not_forward_max :
    findChildren gC2 ⟨.rule 0, 0, 3⟩ forestC2 [] =
      some [⟨.rule 1, 0, 2⟩, ⟨.rule 9, 2, 3⟩] ∧
    completeSequences gC2 0 ⟨.rule 0, 0, 3⟩ forestC2 [] =
      [[⟨.rule 7, 1, 3⟩, ⟨.rule 5, 0, 1⟩], [⟨.rule 9, 2, 3⟩, ⟨.rule 1, 0, 2⟩]] ∧
    seqCmp true [⟨.rule 5, 0, 1⟩, ⟨.rule 7, 1, 3⟩]
      [⟨.rule 1, 0, 2⟩, ⟨.rule 9, 2, 3⟩] = .gt :=
  ⟨rfl, rfl, rfl⟩

/-- Witness for the amended C2 theorem at the concrete two-way ambiguous
forest. -/
theorem findChildren_reverse_order_max_witness :
    completeSequences gC2 0 ⟨.rule 0, 0, 3⟩ forestC2 [] ≠ [] ∧
    ∃ chosen ∈ completeSequences gC2 0 ⟨.rule 0, 0, 3⟩ forestC2 [],
      findChildren gC2 ⟨.rule 0, 0, 3⟩ forestC2 [] = some chosen.reverse ∧
      ∀ other ∈ completeSequences gC2 0 ⟨.rule 0, 0, 3⟩ forestC2 [],
        seqCmp (getDef default gC2.rules 0).leftAssociative chosen other ≠
          .lt :=
  ⟨by decide,
    findChildren_reverse_order_max gC2 ⟨.rule 0, 0, 3⟩ 0 forestC2 [] rfl
      (by decide)
      (by
        intro a b c ha hb hc
        rw [show completeSequences gC2 0 ⟨.rule 0, 0, 3⟩ forestC2 [] =
          [[⟨.rule 7, 1, 3⟩, ⟨.rule 5, 0, 1⟩],
           [⟨.rule 9, 2, 3⟩, ⟨.rule 1, 0, 2⟩]] from rfl] at ha hb hc
        fin_cases ha <;> fin_cases hb <;> fin_cases hc <;> decide)⟩
